import Mathlib

/-!
# SpritzMoon backend: ledger & session engine, verified model

Shallow embedding of `src/app.py` (Flask + SQLite token ledger).  The SQLite
store becomes a `Store` record of lists; the `REAL` columns become exact
rationals; ISO timestamp strings become rationals counting seconds (ISO string
comparison is chronological comparison); Python's `round(x, n)` on these exact
decimals becomes decimal round-half-to-even; SHA-256 hex digests become an
abstract injective tagging of their input (nothing in the program verifies a
hash, it is display-only data).  Each HTTP handler becomes a pure function
from its inputs and the store to a result and an updated store; the
`try ... except` around `add_transaction_to_blockchain` (lines 249-323),
whose handler swallows the exception and returns `None`, is modelled by an
`infra` flag saying whether the try-body succeeds.  Request handlers are
replayed sequentially with a monotonically non-decreasing clock (the spec's
stated clock interface), giving a reachability predicate `Reach`.
-/

set_option maxRecDepth 4000

/-- Python's `round` (banker's rounding) applied to an exact rational:
round to the nearest integer, ties to even. -/
def rhe (q : ℚ) : ℤ :=
  if q - ⌊q⌋ < 1/2 then ⌊q⌋
  else if 1/2 < q - ⌊q⌋ then ⌊q⌋ + 1
  else if ⌊q⌋ % 2 = 0 then ⌊q⌋ else ⌊q⌋ + 1

/-- `round(q, places)` from Python, on an exact rational value. -/
def round_dec (places : ℕ) (q : ℚ) : ℚ :=
  (rhe (q * (10 : ℚ) ^ places) : ℚ) / (10 : ℚ) ^ places

/-- `round(q, 4)`: every balance write in `src/app.py` goes through this. -/
def round4 (q : ℚ) : ℚ := round_dec 4 q

/-- `round(q, 2)`, used for the reported `duration_minutes`. -/
def round2 (q : ℚ) : ℚ := round_dec 2 q

/-- `q` is representable at the ledger's 4-decimal granularity. -/
def Mul4 (q : ℚ) : Prop := ∃ k : ℤ, q * 10000 = (k : ℚ)

/-- A row of the `users` table (src/app.py lines 37-50). -/
structure User where
  balance : ℚ
  mining_rate : ℚ
  last_faucet_claim : Option ℚ
  registration_time : ℚ
  last_activity : ℚ
  total_mined : ℚ
  total_sent : ℚ
  total_received : ℚ
  is_active : Bool
deriving DecidableEq, Repr

/-- A row of the `transactions` table (src/app.py lines 53-66). -/
structure Transaction where
  id : ℕ
  type : String
  from_device : String
  to_device : String
  amount : ℚ
  timestamp : ℚ
  block_hash : Option String
deriving DecidableEq, Repr

/-- A row of the `blockchain_blocks` table (src/app.py lines 69-79). -/
structure Block where
  block_number : ℕ
  block_hash : String
  previous_hash : String
  timestamp : ℚ
  transactions_count : ℕ
  merkle_root : Option String
deriving DecidableEq, Repr

/-- A row of the `mining_sessions` table (src/app.py lines 82-93). -/
structure MiningSession where
  session_id : ℕ
  device_id : String
  start_time : ℚ
  end_time : Option ℚ
  duration_seconds : ℤ
  tokens_earned : ℚ
  status : String
deriving DecidableEq, Repr

/-- The `system_stats` key-value table, restricted to the five statistics the
stats endpoint reads; a field is `none` while its row is absent (as
`active_users` is right after `init_database`). -/
structure SystemStats where
  total_blocks : Option ℕ
  total_users : Option ℕ
  active_users : Option ℕ
  total_transactions : Option ℕ
  total_hash_rate : Option ℚ
deriving DecidableEq, Repr

/-- The whole SQLite database.  `nextId` feeds the generated unique ids
(`uuid.uuid4()` in the source). -/
structure Store where
  users : List (String × User)
  transactions : List Transaction
  blocks : List Block
  sessions : List MiningSession
  stats : SystemStats
  nextId : ℕ
deriving DecidableEq, Repr

/-- SHA-256 hex digest, modelled as an abstract injective encoding. -/
def sha256hex (msg : String) : String := "sha256:" ++ msg

/-- Render a rational timestamp into the hash input string. -/
def ratStr (q : ℚ) : String := toString q.num ++ "/" ++ toString q.den

/-- `hashlib.sha256(b'SpritzMoon Genesis Block')` (line 113). -/
def genesis_hash : String := sha256hex "SpritzMoon Genesis Block"

/-- `sha256(f"{new_block_number}{previous_hash}{timestamp}")` (lines 276-277). -/
def mkBlockHash (n : ℕ) (prev : String) (ts : ℚ) : String :=
  sha256hex (toString n ++ prev ++ ratStr ts)

/-- The genesis block inserted by `init_database` (lines 110-118). -/
def genesisBlock : Block := ⟨0, genesis_hash, "genesis", 0, 1, some genesis_hash⟩

/-- The genesis transaction inserted by `init_database` (lines 120-127). -/
def genesisTx : Transaction := ⟨0, "genesis", "system", "blockchain", 0, 0, some genesis_hash⟩

/-- `system_stats` rows written by `init_database` (lines 129-142): no
`active_users` row exists yet. -/
def initStats : SystemStats := ⟨some 1, some 0, none, some 1, some 0⟩

/-- The freshly initialized database (lines 29-154). -/
def initStore : Store := ⟨[], [genesisTx], [genesisBlock], [], initStats, 1⟩

/-- `UPDATE users SET ... WHERE device_id = id` on the association list. -/
def updUser (id : String) (f : User → User) (l : List (String × User)) :
    List (String × User) :=
  l.map fun p => if p.1 == id then (p.1, f p.2) else p

/-- `update_system_stats` (src/app.py lines 198-247): recompute the five
aggregates from current store contents.  `active_users` counts users whose
`last_activity` is within the trailing 24 hours; `total_hash_rate` is
0.5 per session with status `active`. -/
def computeStats (now : ℚ) (s : Store) : SystemStats :=
  ⟨some s.blocks.length, some s.users.length,
   some (s.users.countP fun p => decide (now - 86400 < p.2.last_activity)),
   some s.transactions.length,
   some (((s.sessions.countP fun m => m.status == "active" : ℕ) : ℚ) * (1/2))⟩

/-- The state effect of `update_system_stats`. -/
def update_system_stats (now : ℚ) (s : Store) : Store :=
  { s with stats := computeStats now s }

/-- `SELECT block_hash FROM blockchain_blocks WHERE block_number = n`. -/
def findBlock (n : ℕ) (l : List Block) : Option Block :=
  l.find? fun b => b.block_number == n

/-- `SELECT MAX(block_number) FROM blockchain_blocks`, `NULL` read as 0
(line 263). -/
def maxBlockNumber (l : List Block) : ℕ :=
  (l.map Block.block_number).foldr max 0

/-- `add_transaction_to_blockchain` (src/app.py lines 249-323).  `infra` is
true when the try-body succeeds; on any exception the handler logs, returns
`None`, and the uncommitted writes are discarded (lines 321-323).  A new
block is opened every 10th transaction; otherwise the open block's
transaction count is incremented.  After committing, `update_system_stats`
runs (line 310). -/
def add_transaction_to_blockchain (infra : Bool) (tx_type fr toD : String)
    (amount now : ℚ) (s : Store) : Option ℕ × Store :=
  if infra then
    let current := maxBlockNumber s.blocks
    match findBlock current s.blocks with
    | none => (none, s)
    | some cb =>
      let txCount := s.transactions.countP fun t => t.block_hash.isSome
      let newBlockNeeded := txCount % 10 == 0 && decide (0 < txCount)
      let bh := if newBlockNeeded then mkBlockHash (current + 1) cb.block_hash now
                else cb.block_hash
      let blocks' :=
        if newBlockNeeded then
          (⟨current + 1, mkBlockHash (current + 1) cb.block_hash now,
            cb.block_hash, now, 1, none⟩ : Block) :: s.blocks
        else
          s.blocks.map fun b =>
            if b.block_number == current then
              { b with transactions_count := b.transactions_count + 1 }
            else b
      let tx : Transaction := ⟨s.nextId, tx_type, fr, toD, amount, now, some bh⟩
      let s1 : Store := { s with blocks := blocks',
                                 transactions := s.transactions ++ [tx],
                                 nextId := s.nextId + 1 }
      (some tx.id, update_system_stats now s1)
  else (none, s)

/-- `mining_rate = round(0.05 + (hash(device_id) % 100) / 1000, 3)`
(line 370); `h` stands for Python's (salted) string hash of the id. -/
def miningRateOf (h : ℤ) : ℚ := round_dec 3 (1/20 + ((h % 100 : ℤ) : ℚ) / 1000)

inductive RegisterResult
  | reconnected (device_id : String) (balance mining_rate : ℚ)
  | registered (device_id : String) (balance mining_rate : ℚ)
  | failure
deriving DecidableEq, Repr

/-- The new-device path of `register_device` (lines 368-394): insert the row,
then append a `registration` transaction.  A primary-key collision on the
generated id raises, reaching the 500 handler with nothing committed. -/
def register_new (newId : String) (h : ℤ) (now : ℚ) (infra : Bool) (s : Store) :
    RegisterResult × Store :=
  match s.users.lookup newId with
  | some _ => (.failure, s)
  | none =>
    let rate := miningRateOf h
    let u : User := ⟨0, rate, none, now, now, 0, 0, 0, true⟩
    let s1 : Store := { s with users := (newId, u) :: s.users }
    let s2 := (add_transaction_to_blockchain infra "registration" "system" newId 0 now s1).2
    (.registered newId 0 rate, s2)

/-- `register_device` (src/app.py lines 336-398).  A known `existing` id is
reconnected (activity refresh only, no transaction); otherwise a fresh id is
registered. -/
def register_device (existing : Option String) (newId : String) (h : ℤ)
    (now : ℚ) (infra : Bool) (s : Store) : RegisterResult × Store :=
  match existing with
  | some id =>
    match s.users.lookup id with
    | some u =>
      (.reconnected id u.balance u.mining_rate,
       { s with users :=
          updUser id (fun v => { v with last_activity := now, is_active := true }) s.users })
    | none => register_new newId h now infra s
  | none => register_new newId h now infra s

inductive BalanceResult
  | required
  | notFound
  | ok (balance : ℚ)
deriving DecidableEq, Repr

/-- `get_balance` (src/app.py lines 400-433): read the balance, refresh
`last_activity`. -/
def get_balance (id : String) (now : ℚ) (s : Store) : BalanceResult × Store :=
  if id == "" then (.required, s)
  else
    match s.users.lookup id with
    | none => (.notFound, s)
    | some u =>
      (.ok u.balance,
       { s with users := updUser id (fun v => { v with last_activity := now }) s.users })

/-- The `WHERE device_id = ? AND status = 'active'` filter on sessions. -/
def isActiveFor (id : String) (m : MiningSession) : Bool :=
  m.device_id == id && m.status == "active"

inductive StartResult
  | required
  | notFound
  | alreadyMining
  | ok (session_id : ℕ)
deriving DecidableEq, Repr

/-- `start_mining` (src/app.py lines 435-494): reject if an active session
exists for the device, otherwise insert an active session, refresh activity,
and append a zero-amount `mining_start` transaction. -/
def start_mining (id : String) (now : ℚ) (infra : Bool) (s : Store) :
    StartResult × Store :=
  if id == "" then (.required, s)
  else
    match s.users.lookup id with
    | none => (.notFound, s)
    | some _ =>
      if s.sessions.any (isActiveFor id) then (.alreadyMining, s)
      else
        let sid := s.nextId
        let m : MiningSession := ⟨sid, id, now, none, 0, 0, "active"⟩
        let s1 : Store := { s with
          sessions := m :: s.sessions,
          nextId := s.nextId + 1,
          users := updUser id (fun v => { v with last_activity := now }) s.users }
        let s2 := (add_transaction_to_blockchain infra "mining_start" id "mining_pool" 0 now s1).2
        (.ok sid, s2)

/-- `ORDER BY start_time DESC LIMIT 1` (line 513): latest session by start
time among the matches. -/
def latestSession : List MiningSession → Option MiningSession
  | [] => none
  | m :: ms =>
    match latestSession ms with
    | none => some m
    | some m' => if m'.start_time ≤ m.start_time then some m else some m'

/-- Python's `int()` truncation toward zero on an exact rational. -/
def ratTrunc (q : ℚ) : ℤ := if 0 ≤ q then ⌊q⌋ else -⌊-q⌋

inductive StopResult
  | required
  | noActiveSession
  | userMissing
  | ok (earned new_balance duration_minutes : ℚ)
deriving DecidableEq, Repr

/-- `stop_mining` (src/app.py lines 496-566): settle the latest active
session; `earned = round(duration_minutes * mining_rate, 4)`, the session is
marked completed, the balance becomes `round(balance + earned, 4)`, and a
`mining_reward` transaction is appended. -/
def stop_mining (id : String) (now : ℚ) (infra : Bool) (s : Store) :
    StopResult × Store :=
  if id == "" then (.required, s)
  else
    match latestSession (s.sessions.filter (isActiveFor id)) with
    | none => (.noActiveSession, s)
    | some sess =>
      match s.users.lookup id with
      | none => (.userMissing, s)
      | some u =>
        let duration_seconds := now - sess.start_time
        let duration_minutes := duration_seconds / 60
        let earned := round4 (duration_minutes * u.mining_rate)
        let new_balance := round4 (u.balance + earned)
        let s1 : Store := { s with
          sessions := s.sessions.map fun m =>
            if m.session_id == sess.session_id then
              { m with end_time := some now, duration_seconds := ratTrunc duration_seconds,
                       tokens_earned := earned, status := "completed" }
            else m,
          users := updUser id (fun v =>
            { v with balance := new_balance, total_mined := v.total_mined + earned,
                     last_activity := now }) s.users }
        let s2 := (add_transaction_to_blockchain infra "mining_reward" "mining_pool" id earned now s1).2
        (.ok earned new_balance (round2 duration_minutes), s2)

inductive FaucetResult
  | required
  | notFound
  | cooldown (hours minutes : ℤ)
  | ok (amount new_balance : ℚ)
deriving DecidableEq, Repr

/-- `int(remaining.total_seconds() // 3600)` (line 593). -/
def fHours (rem : ℚ) : ℤ := ⌊rem / 3600⌋

/-- `int((remaining.total_seconds() % 3600) // 60)` (line 594). -/
def fMinutes (rem : ℚ) : ℤ := ⌊(rem - 3600 * (⌊rem / 3600⌋ : ℚ)) / 60⌋

/-- The reward path of `claim_faucet` (lines 601-624): credit 100, stamp the
claim time, append a `faucet` transaction. -/
def faucet_grant (id : String) (now : ℚ) (infra : Bool) (u : User) (s : Store) :
    FaucetResult × Store :=
  let new_balance := round4 (u.balance + 100)
  let s1 : Store := { s with users := updUser id (fun v =>
    { v with balance := new_balance, last_faucet_claim := some now,
             total_received := v.total_received + 100, last_activity := now }) s.users }
  let s2 := (add_transaction_to_blockchain infra "faucet" "faucet_pool" id 100 now s1).2
  (.ok 100 new_balance, s2)

/-- `claim_faucet` (src/app.py lines 568-628): a claim within 24 hours
(86400 s) of the stored `last_faucet_claim` fails with the remaining wait,
otherwise the reward is granted. -/
def claim_faucet (id : String) (now : ℚ) (infra : Bool) (s : Store) :
    FaucetResult × Store :=
  if id == "" then (.required, s)
  else
    match s.users.lookup id with
    | none => (.notFound, s)
    | some u =>
      match u.last_faucet_claim with
      | some last =>
        if now - last < 86400 then
          (.cooldown (fHours (86400 - (now - last))) (fMinutes (86400 - (now - last))), s)
        else faucet_grant id now infra u s
      | none => faucet_grant id now infra u s

inductive TransferResult
  | invalidData
  | sameDevice
  | senderNotFound
  | insufficientBalance
  | ok (sender_new_balance recipient_new_balance : ℚ)
deriving DecidableEq, Repr

/-- The values `transfer_spm` has read before it writes anything. -/
structure PendingTransfer where
  from_device : String
  to_device : String
  amount : ℚ
  sender_balance : ℚ
  recipient_balance : ℚ
  recipient_missing : Bool
deriving DecidableEq, Repr

/-- Read-and-validate phase of `transfer_spm` (src/app.py lines 634-673):
everything up to the first write.  No lock is held, so under concurrency
another request can commit between this phase and `transfer_commit`. -/
def transfer_read (fr toD : String) (amount : ℚ) (s : Store) :
    Except TransferResult PendingTransfer :=
  if fr == "" || toD == "" || !(decide (0 < amount)) then .error .invalidData
  else if fr == toD then .error .sameDevice
  else
    match s.users.lookup fr with
    | none => .error .senderNotFound
    | some sender =>
      if sender.balance < amount then .error .insufficientBalance
      else
        match s.users.lookup toD with
        | none => .ok ⟨fr, toD, amount, sender.balance, 0, true⟩
        | some recipient => .ok ⟨fr, toD, amount, sender.balance, recipient.balance, false⟩

/-- Write phase of `transfer_spm` (src/app.py lines 664-703), computing the
new balances from the values read earlier: auto-provision the recipient if it
was missing (balance 0, mining rate 0.1), write both balances absolutely,
then append one `transfer` transaction. -/
def transfer_commit (p : PendingTransfer) (now : ℚ) (infra : Bool) (s : Store) :
    TransferResult × Store :=
  let sender_new := round4 (p.sender_balance - p.amount)
  let recipient_new := round4 (p.recipient_balance + p.amount)
  let users0 := if p.recipient_missing then
      (p.to_device, (⟨0, 1/10, none, now, now, 0, 0, 0, true⟩ : User)) :: s.users
    else s.users
  let users1 := updUser p.from_device (fun v =>
    { v with balance := sender_new, total_sent := v.total_sent + p.amount,
             last_activity := now }) users0
  let users2 := updUser p.to_device (fun v =>
    { v with balance := recipient_new, total_received := v.total_received + p.amount,
             last_activity := now }) users1
  let s1 : Store := { s with users := users2 }
  let s2 := (add_transaction_to_blockchain infra "transfer" p.from_device p.to_device p.amount now s1).2
  (.ok sender_new recipient_new, s2)

/-- `transfer_spm` (src/app.py lines 630-707) executed without interleaving:
the read phase immediately followed by the write phase. -/
def transfer_spm (fr toD : String) (amount : ℚ) (now : ℚ) (infra : Bool)
    (s : Store) : TransferResult × Store :=
  match transfer_read fr toD amount s with
  | .error e => (e, s)
  | .ok p => transfer_commit p now infra s

/-- The five values the stats endpoint returns (src/app.py lines 725-734),
with the defaults used for absent rows. -/
structure StatsView where
  total_blocks : ℕ
  total_users : ℕ
  active_users : ℕ
  total_transactions : ℕ
  total_hash_rate : ℚ
deriving DecidableEq, Repr

/-- Reading the stored stats rows into the response (lines 716-734). -/
def statsView (st : SystemStats) : StatsView :=
  ⟨st.total_blocks.getD 1, st.total_users.getD 0, st.active_users.getD 0,
   st.total_transactions.getD 1, st.total_hash_rate.getD 0⟩

/-- `get_blockchain_stats` (src/app.py lines 709-738): read the stored stats
first, then (line 723) run `update_system_stats`; the response is built from
the values read before the recomputation. -/
def get_blockchain_stats (now : ℚ) (s : Store) : StatsView × Store :=
  (statsView s.stats, update_system_stats now s)

/-- A store together with the last timestamp the clock produced. -/
structure World where
  store : Store
  time : ℚ

/-- Reachable states: any sequence of requests replayed against the freshly
initialized database, with `datetime.now()` non-decreasing (the spec's
monotonic clock collaborator), each request free to hit or survive the
swallowed exception of the transaction-append (`infra`). -/
inductive Reach : World → Prop where
  | init : Reach ⟨initStore, 0⟩
  | register (w : World) (hw : Reach w) (existing : Option String) (newId : String)
      (h : ℤ) (infra : Bool) (now : ℚ) (ht : w.time ≤ now) :
      Reach ⟨(register_device existing newId h now infra w.store).2, now⟩
  | balance (w : World) (hw : Reach w) (id : String) (now : ℚ) (ht : w.time ≤ now) :
      Reach ⟨(get_balance id now w.store).2, now⟩
  | start (w : World) (hw : Reach w) (id : String) (infra : Bool) (now : ℚ)
      (ht : w.time ≤ now) :
      Reach ⟨(start_mining id now infra w.store).2, now⟩
  | stop (w : World) (hw : Reach w) (id : String) (infra : Bool) (now : ℚ)
      (ht : w.time ≤ now) :
      Reach ⟨(stop_mining id now infra w.store).2, now⟩
  | faucet (w : World) (hw : Reach w) (id : String) (infra : Bool) (now : ℚ)
      (ht : w.time ≤ now) :
      Reach ⟨(claim_faucet id now infra w.store).2, now⟩
  | transfer (w : World) (hw : Reach w) (fr toD : String) (amount : ℚ)
      (infra : Bool) (now : ℚ) (ht : w.time ≤ now) :
      Reach ⟨(transfer_spm fr toD amount now infra w.store).2, now⟩
  | stats (w : World) (hw : Reach w) (now : ℚ) (ht : w.time ≤ now) :
      Reach ⟨(get_blockchain_stats now w.store).2, now⟩
  | tick (w : World) (hw : Reach w) (now : ℚ) (ht : w.time ≤ now) :
      Reach ⟨update_system_stats now w.store, now⟩

/-! ## Arithmetic lemmas about the modelled rounding -/

theorem rhe_intCast (n : ℤ) : rhe (n : ℚ) = n := by
  simp [rhe]

theorem floor_le_rhe (q : ℚ) : ⌊q⌋ ≤ rhe q := by
  unfold rhe
  split
  · exact le_rfl
  split
  · omega
  split
  · exact le_rfl
  · omega

theorem rhe_nonneg {q : ℚ} (h : 0 ≤ q) : 0 ≤ rhe q :=
  le_trans (Int.floor_nonneg.2 h) (floor_le_rhe q)

theorem round_dec_nonneg (p : ℕ) {q : ℚ} (h : 0 ≤ q) : 0 ≤ round_dec p q := by
  unfold round_dec
  apply div_nonneg
  · exact_mod_cast rhe_nonneg (mul_nonneg h (by positivity))
  · positivity

theorem round4_nonneg {q : ℚ} (h : 0 ≤ q) : 0 ≤ round4 q :=
  round_dec_nonneg 4 h

theorem round4_mul4 (q : ℚ) : Mul4 (round4 q) := by
  refine ⟨rhe (q * (10 : ℚ) ^ 4), ?_⟩
  unfold round4 round_dec
  have h10 : ((10 : ℚ) ^ 4) = 10000 := by norm_num
  rw [h10]
  field_simp

theorem round4_eq_self {q : ℚ} (h : Mul4 q) : round4 q = q := by
  obtain ⟨k, hk⟩ := h
  unfold round4 round_dec
  have h10 : ((10 : ℚ) ^ 4) = 10000 := by norm_num
  rw [h10, hk, rhe_intCast]
  field_simp
  linarith

theorem Mul4.add {a b : ℚ} (ha : Mul4 a) (hb : Mul4 b) : Mul4 (a + b) := by
  obtain ⟨j, hj⟩ := ha
  obtain ⟨k, hk⟩ := hb
  exact ⟨j + k, by push_cast; linarith⟩

theorem Mul4.sub {a b : ℚ} (ha : Mul4 a) (hb : Mul4 b) : Mul4 (a - b) := by
  obtain ⟨j, hj⟩ := ha
  obtain ⟨k, hk⟩ := hb
  exact ⟨j - k, by push_cast; linarith⟩

theorem Mul4.zero : Mul4 0 := ⟨0, by norm_num⟩

theorem Mul4.hundred : Mul4 100 := ⟨1000000, by norm_num⟩

theorem miningRateOf_pos (h : ℤ) : 0 < miningRateOf h := by
  unfold miningRateOf round_dec
  have hm : (0 : ℤ) ≤ h % 100 := Int.emod_nonneg h (by norm_num)
  have hq : (50 : ℚ) ≤ (1/20 + ((h % 100 : ℤ) : ℚ) / 1000) * (10 : ℚ) ^ 3 := by
    have : (0 : ℚ) ≤ ((h % 100 : ℤ) : ℚ) := by exact_mod_cast hm
    nlinarith
  have hfl : (50 : ℤ) ≤ ⌊(1/20 + ((h % 100 : ℤ) : ℚ) / 1000) * (10 : ℚ) ^ 3⌋ :=
    Int.le_floor.2 (by exact_mod_cast hq)
  have hr : (50 : ℤ) ≤ rhe ((1/20 + ((h % 100 : ℤ) : ℚ) / 1000) * (10 : ℚ) ^ 3) :=
    le_trans hfl (floor_le_rhe _)
  have hc : (50 : ℚ) ≤ (rhe ((1/20 + ((h % 100 : ℤ) : ℚ) / 1000) * (10 : ℚ) ^ 3) : ℚ) := by
    exact_mod_cast hr
  have h3 : (0 : ℚ) < (10 : ℚ) ^ 3 := by positivity
  exact div_pos (lt_of_lt_of_le (by norm_num) hc) h3

/-! ## Association-list lemmas for the users table -/

theorem lookup_cons_eq {a : String} {p : String × User} {t : List (String × User)}
    (h : a = p.1) : (p :: t).lookup a = some p.2 := by
  cases p
  subst h
  simp [List.lookup_cons]

theorem lookup_cons_ne {a : String} {p : String × User} {t : List (String × User)}
    (h : a ≠ p.1) : (p :: t).lookup a = t.lookup a := by
  cases p
  simp only [List.lookup_cons]
  rw [show (a == _) = false from beq_eq_false_iff_ne.2 h]

theorem updUser_cons_eq {id : String} {f : User → User} {p : String × User}
    {t : List (String × User)} (h : p.1 = id) :
    updUser id f (p :: t) = (p.1, f p.2) :: updUser id f t := by
  simp [updUser, h]

theorem updUser_cons_ne {id : String} {f : User → User} {p : String × User}
    {t : List (String × User)} (h : p.1 ≠ id) :
    updUser id f (p :: t) = p :: updUser id f t := by
  simp only [updUser, List.map_cons]
  rw [show (p.1 == id) = false from beq_eq_false_iff_ne.2 h]
  simp

theorem updUser_keys (id : String) (f : User → User) (l : List (String × User)) :
    (updUser id f l).map Prod.fst = l.map Prod.fst := by
  induction l with
  | nil => rfl
  | cons p t ih =>
    by_cases h : p.1 = id
    · rw [updUser_cons_eq h]
      simp [ih]
    · rw [updUser_cons_ne h]
      simp [ih]

theorem lookup_updUser_self (id : String) (f : User → User) (l : List (String × User)) :
    (updUser id f l).lookup id = (l.lookup id).map f := by
  induction l with
  | nil => rfl
  | cons p t ih =>
    by_cases h : p.1 = id
    · rw [updUser_cons_eq h, @lookup_cons_eq id (p.1, f p.2) (updUser id f t) h.symm,
          lookup_cons_eq h.symm]
      rfl
    · rw [updUser_cons_ne h, @lookup_cons_ne id p (updUser id f t) (fun hc => h hc.symm),
          lookup_cons_ne (fun hc => h hc.symm), ih]

theorem lookup_updUser_ne {id' id : String} (h : id' ≠ id) (f : User → User)
    (l : List (String × User)) :
    (updUser id f l).lookup id' = l.lookup id' := by
  induction l with
  | nil => rfl
  | cons p t ih =>
    by_cases hp : p.1 = id
    · rw [updUser_cons_eq hp, lookup_cons_ne (by simp [hp, h]), lookup_cons_ne (by simp [hp, h]), ih]
    · by_cases hq : id' = p.1
      · rw [updUser_cons_ne hp, lookup_cons_eq hq, lookup_cons_eq hq]
      · rw [updUser_cons_ne hp, lookup_cons_ne hq, lookup_cons_ne hq, ih]

theorem lookup_mem {l : List (String × User)} {id : String} {u : User}
    (h : l.lookup id = some u) : (id, u) ∈ l := by
  induction l with
  | nil => cases h
  | cons p t ih =>
    by_cases hq : id = p.1
    · rw [lookup_cons_eq hq] at h
      cases h
      rw [hq]
      exact List.mem_cons_self _ _
    · rw [lookup_cons_ne hq] at h
      exact List.mem_cons_of_mem _ (ih h)

theorem lookup_none_not_mem {l : List (String × User)} {id : String}
    (h : l.lookup id = none) : ∀ p ∈ l, p.1 ≠ id := by
  induction l with
  | nil => intro p hp; cases hp
  | cons p t ih =>
    intro q hq
    by_cases hb : id = p.1
    · rw [lookup_cons_eq hb] at h; cases h
    · rw [lookup_cons_ne hb] at h
      rcases List.mem_cons.1 hq with rfl | hq'
      · exact fun hc => hb hc.symm
      · exact ih h q hq'

theorem updUser_not_mem {l : List (String × User)} {id : String}
    (h : ∀ p ∈ l, p.1 ≠ id) (f : User → User) : updUser id f l = l := by
  induction l with
  | nil => rfl
  | cons p t ih =>
    rw [updUser_cons_ne (h p (List.mem_cons_self _ _)),
        ih fun q hq => h q (List.mem_cons_of_mem _ hq)]

theorem updUser_pred {P : User → Prop} {f : User → User} {id : String}
    {l : List (String × User)} (hP : ∀ u, P u → P (f u))
    (hl : ∀ p ∈ l, P p.2) : ∀ p ∈ updUser id f l, P p.2 := by
  intro p hp
  obtain ⟨q, hq, hpq⟩ := List.mem_map.1 hp
  by_cases hb : q.1 = id
  · rw [if_pos (beq_iff_eq.2 hb)] at hpq
    rw [← hpq]
    exact hP _ (hl q hq)
  · rw [if_neg (by simp [hb])] at hpq
    rw [← hpq]
    exact hl q hq

/-- Total of all stored device balances. -/
def sumBalances (l : List (String × User)) : ℚ := (l.map fun p => (p.2).balance).sum

theorem sumBalances_cons (p : String × User) (t : List (String × User)) :
    sumBalances (p :: t) = (p.2).balance + sumBalances t := by
  simp [sumBalances]

theorem sumBalances_updUser {l : List (String × User)} {id : String} {u : User}
    (hnd : (l.map Prod.fst).Nodup) (hl : l.lookup id = some u) (f : User → User) :
    sumBalances (updUser id f l) = sumBalances l - u.balance + (f u).balance := by
  induction l with
  | nil => cases hl
  | cons p t ih =>
    simp only [List.map_cons, List.nodup_cons] at hnd
    by_cases hq : id = p.1
    · rw [lookup_cons_eq hq] at hl
      cases hl
      have ht : updUser id f t = t := by
        refine updUser_not_mem (fun q hq' => fun hc => ?_) f
        exact hnd.1 (hq ▸ hc ▸ List.mem_map_of_mem Prod.fst hq')
      rw [updUser_cons_eq hq.symm, sumBalances_cons, sumBalances_cons, ht]
      ring
    · rw [lookup_cons_ne hq] at hl
      rw [updUser_cons_ne fun hc => hq hc.symm, sumBalances_cons, sumBalances_cons,
          ih hnd.2 hl]
      ring

/-! ## Mining-session list lemmas -/

theorem countP_map_le {α : Type} (l : List α) (f : α → α) (p : α → Bool)
    (h : ∀ a ∈ l, p (f a) = true → p a = true) :
    (l.map f).countP p ≤ l.countP p := by
  induction l with
  | nil => simp
  | cons a t ih =>
    have ht := ih fun x hx => h x (List.mem_cons_of_mem _ hx)
    simp only [List.map_cons, List.countP_cons]
    by_cases hp : p (f a) = true
    · rw [if_pos hp, if_pos (h a (List.mem_cons_self _ _) hp)]
      omega
    · rw [if_neg hp]
      split <;> omega

theorem latestSession_mem {l : List MiningSession} {m : MiningSession}
    (h : latestSession l = some m) : m ∈ l := by
  induction l with
  | nil => cases h
  | cons a t ih =>
    rw [latestSession] at h
    cases ht : latestSession t with
    | none =>
      rw [ht] at h
      dsimp only at h
      cases h
      exact List.mem_cons_self _ _
    | some m' =>
      rw [ht] at h
      dsimp only at h
      by_cases hle : m'.start_time ≤ a.start_time
      · rw [if_pos hle] at h
        cases h
        exact List.mem_cons_self _ _
      · rw [if_neg hle] at h
        cases h
        exact List.mem_cons_of_mem _ (ih ht)

theorem countP_eq_zero_of_any_false {α : Type} {l : List α} {p : α → Bool}
    (h : l.any p = false) : l.countP p = 0 := by
  rw [List.countP_eq_zero]
  intro a ha hpa
  rw [List.any_eq_false] at h
  exact absurd hpa (h a ha)

/-! ## Blockchain-block list lemmas -/

/-- The block table is well-formed: stored newest first, the numbers count
down contiguously to the genesis block 0, and each block's `previous_hash`
is the `block_hash` of its predecessor. -/
def BlocksWF (l : List Block) : Prop :=
  l.map Block.block_number = (List.range l.length).reverse ∧
  List.Chain' (fun a b => a.previous_hash = b.block_hash) l

theorem range_reverse_succ (n : ℕ) :
    (List.range (n + 1)).reverse = n :: (List.range n).reverse := by
  rw [List.range_succ, List.reverse_append]
  rfl

theorem foldr_max_range_reverse (n : ℕ) :
    ((List.range n).reverse).foldr max 0 = n - 1 := by
  induction n with
  | zero => rfl
  | succ k ih =>
    rw [range_reverse_succ, List.foldr_cons, ih]
    omega

theorem blocksWF_shape {l : List Block} (hwf : BlocksWF l) (hne : l ≠ []) :
    ∃ b t, l = b :: t ∧ b.block_number = l.length - 1 ∧ BlocksWF t := by
  cases l with
  | nil => exact absurd rfl hne
  | cons b t =>
    have h1 := hwf.1
    rw [List.map_cons, List.length_cons, range_reverse_succ] at h1
    injection h1 with h1a h1b
    refine ⟨b, t, rfl, ?_, h1b, hwf.2.tail⟩
    simp [List.length_cons, h1a]

theorem maxBlockNumber_eq {l : List Block} (hwf : BlocksWF l) :
    maxBlockNumber l = l.length - 1 := by
  unfold maxBlockNumber
  rw [hwf.1, foldr_max_range_reverse]

theorem findBlock_head {b : Block} {t : List Block} {n : ℕ} (hb : b.block_number = n) :
    findBlock n (b :: t) = some b := by
  unfold findBlock
  exact List.find?_cons_of_pos _ (by simp [hb])

/-! ## Effect lemmas for the transaction-append -/

theorem add_tx_users (infra : Bool) (ty fr toD : String) (amt now : ℚ) (s : Store) :
    ((add_transaction_to_blockchain infra ty fr toD amt now s).2).users = s.users := by
  unfold add_transaction_to_blockchain
  split
  · dsimp only
    split <;> rfl
  · rfl

theorem add_tx_sessions (infra : Bool) (ty fr toD : String) (amt now : ℚ) (s : Store) :
    ((add_transaction_to_blockchain infra ty fr toD amt now s).2).sessions = s.sessions := by
  unfold add_transaction_to_blockchain
  split
  · dsimp only
    split <;> rfl
  · rfl

theorem blocksWF_step {l : List Block} (hwf : BlocksWF l) {cb : Block}
    (hfb : findBlock (maxBlockNumber l) l = some cb) (now : ℚ) :
    BlocksWF ((⟨maxBlockNumber l + 1, mkBlockHash (maxBlockNumber l + 1) cb.block_hash now,
      cb.block_hash, now, 1, none⟩ : Block) :: l) := by
  have hne : l ≠ [] := by
    intro he
    rw [he] at hfb
    cases hfb
  obtain ⟨b, t, rfl, hbn, _⟩ := blocksWF_shape hwf hne
  have hmax : maxBlockNumber (b :: t) = (b :: t).length - 1 := maxBlockNumber_eq hwf
  have hcb : cb = b := by
    rw [hmax, findBlock_head (by rw [hbn])] at hfb
    cases hfb
    rfl
  constructor
  · have h1 := hwf.1
    rw [List.map_cons, List.length_cons, range_reverse_succ] at h1
    simp only [List.map_cons, List.length_cons, range_reverse_succ, hmax]
    rw [List.cons.injEq]
    refine ⟨by omega, ?_⟩
    injection h1 with h1a h1b
    rw [h1a, h1b]
  · rw [List.chain'_cons]
    exact ⟨by rw [hcb], hwf.2⟩

theorem blocksWF_bump {l : List Block} (hwf : BlocksWF l) (n : ℕ) :
    BlocksWF (l.map fun b => if b.block_number == n then
      { b with transactions_count := b.transactions_count + 1 } else b) := by
  have hbn : ∀ b : Block, ((fun b => if b.block_number == n then
      { b with transactions_count := b.transactions_count + 1 } else b) b).block_number
      = b.block_number := by
    intro b
    dsimp only
    split <;> rfl
  have hph : ∀ b : Block, ((fun b => if b.block_number == n then
      { b with transactions_count := b.transactions_count + 1 } else b) b).previous_hash
      = b.previous_hash := by
    intro b
    dsimp only
    split <;> rfl
  have hbh : ∀ b : Block, ((fun b => if b.block_number == n then
      { b with transactions_count := b.transactions_count + 1 } else b) b).block_hash
      = b.block_hash := by
    intro b
    dsimp only
    split <;> rfl
  constructor
  · rw [List.map_map, List.length_map]
    rw [show (Block.block_number ∘ fun b => if b.block_number == n then
        { b with transactions_count := b.transactions_count + 1 } else b)
        = Block.block_number from funext fun b => hbn b]
    exact hwf.1
  · rw [List.chain'_map]
    refine List.Chain'.imp ?_ hwf.2
    intro a b hab
    rw [hph, hbh]
    exact hab

theorem add_tx_blocksWF {s : Store} (hwf : BlocksWF s.blocks)
    (infra : Bool) (ty fr toD : String) (amt now : ℚ) :
    BlocksWF ((add_transaction_to_blockchain infra ty fr toD amt now s).2).blocks := by
  unfold add_transaction_to_blockchain
  split
  · dsimp only
    split
    · exact hwf
    · rename_i cb heq
      dsimp only
      split
      · exact blocksWF_step hwf heq now
      · exact blocksWF_bump hwf _
  · exact hwf

theorem add_tx_blocks_ne {s : Store} (hne : s.blocks ≠ [])
    (infra : Bool) (ty fr toD : String) (amt now : ℚ) :
    ((add_transaction_to_blockchain infra ty fr toD amt now s).2).blocks ≠ [] := by
  unfold add_transaction_to_blockchain
  split
  · dsimp only
    split
    · exact hne
    · dsimp only
      split
      · exact List.cons_ne_nil _ _
      · simp only [update_system_stats]
        simpa using hne
  · exact hne

/-! ## The reachable-state invariant -/

/-- Store-level invariant: unique device keys, non-negative balances at the
4-decimal granularity, positive mining rates, at most one active session per
device, and a well-formed block table. -/
structure SInv (s : Store) : Prop where
  nodup : (s.users.map Prod.fst).Nodup
  nonneg : ∀ p ∈ s.users, 0 ≤ (p.2).balance
  mul4 : ∀ p ∈ s.users, Mul4 (p.2).balance
  ratePos : ∀ p ∈ s.users, 0 < (p.2).mining_rate
  sessOne : ∀ id : String, s.sessions.countP (isActiveFor id) ≤ 1
  blocksWF : BlocksWF s.blocks
  blocksNe : s.blocks ≠ []

/-- Every active session started no later than time `t`. -/
def SessTimes (t : ℚ) (l : List MiningSession) : Prop :=
  ∀ m ∈ l, m.status = "active" → m.start_time ≤ t

/-- World-level invariant. -/
def WInv (w : World) : Prop := SInv w.store ∧ SessTimes w.time w.store.sessions

theorem sessTimes_mono {t now : ℚ} {l : List MiningSession} (ht : t ≤ now)
    (h : SessTimes t l) : SessTimes now l :=
  fun m hm ha => le_trans (h m hm ha) ht

theorem not_mem_keys {l : List (String × User)} {id : String}
    (h : l.lookup id = none) : id ∉ l.map Prod.fst := by
  intro hm
  obtain ⟨p, hp, hpe⟩ := List.mem_map.1 hm
  exact lookup_none_not_mem h p hp hpe

theorem sinv_updUser {s : Store} (hs : SInv s) (id : String) (f : User → User)
    (h1 : ∀ v : User, 0 ≤ v.balance → 0 ≤ (f v).balance)
    (h2 : ∀ v : User, Mul4 v.balance → Mul4 (f v).balance)
    (h3 : ∀ v : User, 0 < v.mining_rate → 0 < (f v).mining_rate) :
    SInv { s with users := updUser id f s.users } := by
  refine ⟨?_, ?_, ?_, ?_, hs.sessOne, hs.blocksWF, hs.blocksNe⟩
  · rw [show ({ s with users := updUser id f s.users } : Store).users
        = updUser id f s.users from rfl, updUser_keys]
    exact hs.nodup
  · exact updUser_pred h1 hs.nonneg
  · exact updUser_pred h2 hs.mul4
  · exact updUser_pred h3 hs.ratePos

theorem sinv_insert {s : Store} (hs : SInv s) {id : String}
    (hid : s.users.lookup id = none) (u : User)
    (hb : 0 ≤ u.balance) (hm : Mul4 u.balance) (hr : 0 < u.mining_rate) :
    SInv { s with users := (id, u) :: s.users } := by
  refine ⟨?_, ?_, ?_, ?_, hs.sessOne, hs.blocksWF, hs.blocksNe⟩
  · rw [show ({ s with users := (id, u) :: s.users } : Store).users
        = (id, u) :: s.users from rfl, List.map_cons]
    exact List.nodup_cons.2 ⟨not_mem_keys hid, hs.nodup⟩
  · intro p hp
    rcases List.mem_cons.1 hp with rfl | hp'
    · exact hb
    · exact hs.nonneg p hp'
  · intro p hp
    rcases List.mem_cons.1 hp with rfl | hp'
    · exact hm
    · exact hs.mul4 p hp'
  · intro p hp
    rcases List.mem_cons.1 hp with rfl | hp'
    · exact hr
    · exact hs.ratePos p hp'

theorem sinv_add_tx {s : Store} (hs : SInv s) (infra : Bool) (ty fr toD : String)
    (amt now : ℚ) : SInv ((add_transaction_to_blockchain infra ty fr toD amt now s).2) := by
  refine ⟨?_, ?_, ?_, ?_, ?_, add_tx_blocksWF hs.blocksWF infra ty fr toD amt now,
    add_tx_blocks_ne hs.blocksNe infra ty fr toD amt now⟩
  · rw [add_tx_users]; exact hs.nodup
  · rw [add_tx_users]; exact hs.nonneg
  · rw [add_tx_users]; exact hs.mul4
  · rw [add_tx_users]; exact hs.ratePos
  · intro i
    rw [add_tx_sessions]
    exact hs.sessOne i

theorem sessTimes_add_tx {s : Store} {now : ℚ} (h : SessTimes now s.sessions)
    (infra : Bool) (ty fr toD : String) (amt t2 : ℚ) :
    SessTimes now ((add_transaction_to_blockchain infra ty fr toD amt t2 s).2).sessions := by
  rw [add_tx_sessions]
  exact h

theorem sinv_stats {s : Store} (hs : SInv s) (now : ℚ) :
    SInv (update_system_stats now s) :=
  ⟨hs.nodup, hs.nonneg, hs.mul4, hs.ratePos, hs.sessOne, hs.blocksWF, hs.blocksNe⟩

theorem winv_init : WInv ⟨initStore, 0⟩ := by
  refine ⟨⟨?_, ?_, ?_, ?_, ?_, ?_, ?_⟩, ?_⟩
  · exact List.nodup_nil
  · intro p hp; cases hp
  · intro p hp; cases hp
  · intro p hp; cases hp
  · intro id; simp [initStore]
  · constructor
    · rfl
    · simp [initStore]
  · simp [initStore]
  · intro m hm; cases hm

theorem winv_register {w : World} (h : WInv w) {now : ℚ} (ht : w.time ≤ now)
    (existing : Option String) (newId : String) (hh : ℤ) (infra : Bool) :
    WInv ⟨(register_device existing newId hh now infra w.store).2, now⟩ := by
  obtain ⟨hs, hts⟩ := h
  have hmono := sessTimes_mono ht hts
  have hnew : WInv ⟨(register_new newId hh now infra w.store).2, now⟩ := by
    unfold register_new
    split
    · exact ⟨hs, hmono⟩
    · rename_i hl
      dsimp only
      constructor
      · apply sinv_add_tx
        exact sinv_insert hs hl _ le_rfl Mul4.zero (miningRateOf_pos hh)
      · apply sessTimes_add_tx
        exact hmono
  unfold register_device
  split
  · split
    · dsimp only
      constructor
      · apply sinv_updUser hs
        · intro v hv; exact hv
        · intro v hv; exact hv
        · intro v hv; exact hv
      · exact hmono
    · exact hnew
  · exact hnew

theorem winv_balance {w : World} (h : WInv w) {now : ℚ} (ht : w.time ≤ now)
    (id : String) : WInv ⟨(get_balance id now w.store).2, now⟩ := by
  obtain ⟨hs, hts⟩ := h
  have hmono := sessTimes_mono ht hts
  unfold get_balance
  split
  · exact ⟨hs, hmono⟩
  · split
    · exact ⟨hs, hmono⟩
    · dsimp only
      constructor
      · apply sinv_updUser hs
        · intro v hv; exact hv
        · intro v hv; exact hv
        · intro v hv; exact hv
      · exact hmono

theorem winv_faucet_grant {s : Store} {t : ℚ} (hs : SInv s)
    (hts : SessTimes t s.sessions) {id : String} {u : User}
    (hu : s.users.lookup id = some u) {now : ℚ} (ht : t ≤ now) (infra : Bool) :
    WInv ⟨(faucet_grant id now infra u s).2, now⟩ := by
  have hb : 0 ≤ u.balance := hs.nonneg _ (lookup_mem hu)
  have hmono := sessTimes_mono ht hts
  unfold faucet_grant
  dsimp only
  constructor
  · apply sinv_add_tx
    apply sinv_updUser hs
    · intro v _; exact round4_nonneg (by linarith)
    · intro v _; exact round4_mul4 _
    · intro v hv; exact hv
  · apply sessTimes_add_tx
    exact hmono

theorem winv_faucet {w : World} (h : WInv w) {now : ℚ} (ht : w.time ≤ now)
    (id : String) (infra : Bool) :
    WInv ⟨(claim_faucet id now infra w.store).2, now⟩ := by
  obtain ⟨hs, hts⟩ := h
  have hmono := sessTimes_mono ht hts
  unfold claim_faucet
  split
  · exact ⟨hs, hmono⟩
  · split
    · exact ⟨hs, hmono⟩
    · rename_i u hu
      split
      · rename_i last hlast
        split
        · exact ⟨hs, hmono⟩
        · exact winv_faucet_grant hs hts hu ht infra
      · exact winv_faucet_grant hs hts hu ht infra

theorem winv_stats_op {w : World} (h : WInv w) {now : ℚ} (ht : w.time ≤ now) :
    WInv ⟨(get_blockchain_stats now w.store).2, now⟩ := by
  obtain ⟨hs, hts⟩ := h
  exact ⟨sinv_stats hs now, sessTimes_mono ht hts⟩

theorem winv_tick {w : World} (h : WInv w) {now : ℚ} (ht : w.time ≤ now) :
    WInv ⟨update_system_stats now w.store, now⟩ := by
  obtain ⟨hs, hts⟩ := h
  exact ⟨sinv_stats hs now, sessTimes_mono ht hts⟩

theorem sinv_set_sessions {s : Store} (hs : SInv s) (l : List MiningSession)
    (hone : ∀ id : String, l.countP (isActiveFor id) ≤ 1) :
    SInv { s with sessions := l } :=
  ⟨hs.nodup, hs.nonneg, hs.mul4, hs.ratePos, hone, hs.blocksWF, hs.blocksNe⟩

theorem sinv_set_sessions_nextId {s : Store} (hs : SInv s) (l : List MiningSession)
    (k : ℕ) (hone : ∀ id : String, l.countP (isActiveFor id) ≤ 1) :
    SInv { s with sessions := l, nextId := k } :=
  ⟨hs.nodup, hs.nonneg, hs.mul4, hs.ratePos, hone, hs.blocksWF, hs.blocksNe⟩

theorem winv_start {w : World} (h : WInv w) {now : ℚ} (ht : w.time ≤ now)
    (id : String) (infra : Bool) :
    WInv ⟨(start_mining id now infra w.store).2, now⟩ := by
  obtain ⟨hs, hts⟩ := h
  have hmono := sessTimes_mono ht hts
  unfold start_mining
  split
  · exact ⟨hs, hmono⟩
  · split
    · exact ⟨hs, hmono⟩
    · split
      · exact ⟨hs, hmono⟩
      · rename_i hany
        dsimp only
        have hanyf : w.store.sessions.any (isActiveFor id) = false :=
          Bool.not_eq_true _ ▸ Bool.of_not_eq_true hany
        constructor
        · apply sinv_add_tx
          have husers := sinv_updUser hs id
            (fun v => { v with last_activity := now })
            (fun v hv => hv) (fun v hv => hv) (fun v hv => hv)
          refine sinv_set_sessions_nextId husers _ _ ?_
          intro i
          rw [List.countP_cons]
          by_cases hi : i = id
          · subst hi
            rw [countP_eq_zero_of_any_false hanyf]
            split <;> omega
          · have hfa : isActiveFor i ⟨w.store.nextId, id, now, none, 0, 0, "active"⟩ = false := by
              simp [isActiveFor]
              intro hc
              exact absurd hc (fun hc' => hi hc'.symm)
            rw [hfa]
            simpa using hs.sessOne i
        · apply sessTimes_add_tx
          intro m hm ha
          rcases List.mem_cons.1 hm with rfl | hm'
          · exact le_rfl
          · exact hmono m hm' ha

theorem winv_stop {w : World} (h : WInv w) {now : ℚ} (ht : w.time ≤ now)
    (id : String) (infra : Bool) :
    WInv ⟨(stop_mining id now infra w.store).2, now⟩ := by
  obtain ⟨hs, hts⟩ := h
  have hmono := sessTimes_mono ht hts
  unfold stop_mining
  split
  · exact ⟨hs, hmono⟩
  · split
    · exact ⟨hs, hmono⟩
    · rename_i sess hsess
      split
      · exact ⟨hs, hmono⟩
      · rename_i u hu
        dsimp only
        have hsmem := List.mem_filter.1 (latestSession_mem hsess)
        have hact : sess.status = "active" := by
          have h2 := hsmem.2
          simp [isActiveFor] at h2
          exact h2.2
        have hstart : sess.start_time ≤ w.time := hts sess hsmem.1 hact
        have hrate : 0 < u.mining_rate := hs.ratePos _ (lookup_mem hu)
        have hbal : 0 ≤ u.balance := hs.nonneg _ (lookup_mem hu)
        have hearn : 0 ≤ round4 ((now - sess.start_time) / 60 * u.mining_rate) := by
          apply round4_nonneg
          apply mul_nonneg _ hrate.le
          apply div_nonneg _ (by norm_num)
          linarith
        constructor
        · apply sinv_add_tx
          have husers := sinv_updUser hs id
            (fun v => { v with balance := round4 (u.balance + round4 ((now - sess.start_time) / 60 * u.mining_rate)),
                               total_mined := v.total_mined + round4 ((now - sess.start_time) / 60 * u.mining_rate),
                               last_activity := now })
            (fun v _ => round4_nonneg (by linarith))
            (fun v _ => round4_mul4 _)
            (fun v hv => hv)
          refine sinv_set_sessions husers _ ?_
          intro i
          refine le_trans (countP_map_le _ _ _ ?_) (hs.sessOne i)
          intro a _ hpa
          by_cases hc : (a.session_id == sess.session_id) = true
          · rw [if_pos hc] at hpa
            simp [isActiveFor] at hpa
          · rw [if_neg hc] at hpa
            exact hpa
        · apply sessTimes_add_tx
          intro m hm ha
          obtain ⟨a, hal, hae⟩ := List.mem_map.1 hm
          by_cases hc : (a.session_id == sess.session_id) = true
          · rw [if_pos hc] at hae
            rw [← hae] at ha
            simp at ha
          · rw [if_neg hc] at hae
            rw [← hae] at ha ⊢
            exact hmono a hal ha

theorem transfer_read_ok {fr toD : String} {amount : ℚ} {s : Store} {p : PendingTransfer}
    (h : transfer_read fr toD amount s = .ok p) :
    p.from_device = fr ∧ p.to_device = toD ∧ p.amount = amount ∧
    fr ≠ "" ∧ toD ≠ "" ∧ 0 < amount ∧ fr ≠ toD ∧
    (∃ sender, s.users.lookup fr = some sender ∧ p.sender_balance = sender.balance ∧
      amount ≤ sender.balance) ∧
    ((p.recipient_missing = true ∧ s.users.lookup toD = none ∧ p.recipient_balance = 0) ∨
     (p.recipient_missing = false ∧
       ∃ r, s.users.lookup toD = some r ∧ p.recipient_balance = r.balance)) := by
  unfold transfer_read at h
  split at h
  · cases h
  · rename_i h1
    split at h
    · cases h
    · rename_i h2
      simp only [Bool.or_eq_true, Bool.not_eq_true', decide_eq_false_iff_not,
        beq_iff_eq, not_or, not_not] at h1
      have hfr : fr ≠ toD := by
        intro hc
        exact h2 (by rw [hc, beq_self_eq_true])
      split at h
      · cases h
      · rename_i sender hsender
        split at h
        · cases h
        · rename_i h3
          obtain ⟨⟨hf1, hf2⟩, hf3⟩ := h1
          split at h
          · rename_i hto
            cases h
            exact ⟨rfl, rfl, rfl, hf1, hf2, hf3, hfr,
              ⟨sender, hsender, rfl, not_lt.1 h3⟩, .inl ⟨rfl, hto, rfl⟩⟩
          · rename_i r hto
            cases h
            exact ⟨rfl, rfl, rfl, hf1, hf2, hf3, hfr,
              ⟨sender, hsender, rfl, not_lt.1 h3⟩, .inr ⟨rfl, r, hto, rfl⟩⟩

theorem winv_transfer {w : World} (h : WInv w) {now : ℚ} (ht : w.time ≤ now)
    (fr toD : String) (amount : ℚ) (infra : Bool) :
    WInv ⟨(transfer_spm fr toD amount now infra w.store).2, now⟩ := by
  obtain ⟨hs, hts⟩ := h
  have hmono := sessTimes_mono ht hts
  unfold transfer_spm
  split
  · exact ⟨hs, hmono⟩
  · rename_i p hp
    obtain ⟨hpf, hpt, hpa, _, _, hamt, hnet, ⟨sender, hsender, hsb, hle⟩, hrec⟩ :=
      transfer_read_ok hp
    unfold transfer_commit
    dsimp only
    have hsend_nonneg : (0 : ℚ) ≤ p.sender_balance - p.amount := by
      rw [hsb, hpa]
      linarith
    constructor
    · apply sinv_add_tx
      rcases hrec with ⟨hm, hto, hrb⟩ | ⟨hm, r, hto, hrb⟩
      · have hrec_nonneg : (0 : ℚ) ≤ p.recipient_balance + p.amount := by
          rw [hrb, hpa]
          linarith
        rw [hm]
        simp only [if_true]
        rw [← hpt] at hto
        exact sinv_updUser
          (sinv_updUser
            (sinv_insert hs hto ⟨0, 1/10, none, now, now, 0, 0, 0, true⟩
              le_rfl Mul4.zero (by norm_num))
            p.from_device
            (fun v => { v with balance := round4 (p.sender_balance - p.amount),
                               total_sent := v.total_sent + p.amount, last_activity := now })
            (fun v _ => round4_nonneg hsend_nonneg)
            (fun v _ => round4_mul4 _)
            (fun v hv => hv))
          p.to_device
          (fun v => { v with balance := round4 (p.recipient_balance + p.amount),
                             total_received := v.total_received + p.amount, last_activity := now })
          (fun v _ => round4_nonneg hrec_nonneg)
          (fun v _ => round4_mul4 _)
          (fun v hv => hv)
      · have hrn : 0 ≤ r.balance := hs.nonneg _ (lookup_mem hto)
        have hrec_nonneg : (0 : ℚ) ≤ p.recipient_balance + p.amount := by
          rw [hrb, hpa]
          linarith
        rw [hm]
        simp only [Bool.false_eq_true, if_false]
        exact sinv_updUser
          (sinv_updUser hs
            p.from_device
            (fun v => { v with balance := round4 (p.sender_balance - p.amount),
                               total_sent := v.total_sent + p.amount, last_activity := now })
            (fun v _ => round4_nonneg hsend_nonneg)
            (fun v _ => round4_mul4 _)
            (fun v hv => hv))
          p.to_device
          (fun v => { v with balance := round4 (p.recipient_balance + p.amount),
                             total_received := v.total_received + p.amount, last_activity := now })
          (fun v _ => round4_nonneg hrec_nonneg)
          (fun v _ => round4_mul4 _)
          (fun v hv => hv)
    · apply sessTimes_add_tx
      rcases hrec with ⟨hm, _, _⟩ | ⟨hm, _⟩ <;> rw [hm] <;> exact hmono

/-- Every reachable world satisfies the invariant. -/
theorem reach_winv {w : World} (h : Reach w) : WInv w := by
  induction h with
  | init => exact winv_init
  | register w hw existing newId hh infra now ht ih => exact winv_register ih ht existing newId hh infra
  | balance w hw id now ht ih => exact winv_balance ih ht id
  | start w hw id infra now ht ih => exact winv_start ih ht id infra
  | stop w hw id infra now ht ih => exact winv_stop ih ht id infra
  | faucet w hw id infra now ht ih => exact winv_faucet ih ht id infra
  | transfer w hw fr toD amount infra now ht ih => exact winv_transfer ih ht fr toD amount infra
  | stats w hw now ht ih => exact winv_stats_op ih ht
  | tick w hw now ht ih => exact winv_tick ih ht

/-! ## Concrete reachable scenarios -/

/-- The store after registering device `SPM_A` (Python hash value 0) at time 0. -/
def regStore : Store := (register_device none "SPM_A" 0 0 true initStore).2

/-- `regStore` after a faucet claim at time 0: `SPM_A` holds balance 100. -/
def faucetStore : Store := (claim_faucet "SPM_A" 0 true regStore).2

/-- The row of `SPM_A` in `regStore`. -/
def regUser : User := ⟨0, 1/20, none, 0, 0, 0, 0, 0, true⟩

theorem reach_regStore : Reach ⟨regStore, 0⟩ :=
  Reach.register ⟨initStore, 0⟩ Reach.init none "SPM_A" 0 true 0 le_rfl

theorem reach_faucetStore : Reach ⟨faucetStore, 0⟩ :=
  Reach.faucet ⟨regStore, 0⟩ reach_regStore "SPM_A" true 0 le_rfl

/-- `regStore`, written out: used to keep later evaluations shallow. -/
def regStoreE : Store :=
  ⟨[("SPM_A", ⟨0, 1/20, none, 0, 0, 0, 0, 0, true⟩)],
   [⟨0, "genesis", "system", "blockchain", 0, 0, some "sha256:SpritzMoon Genesis Block"⟩,
    ⟨1, "registration", "system", "SPM_A", 0, 0, some "sha256:SpritzMoon Genesis Block"⟩],
   [⟨0, "sha256:SpritzMoon Genesis Block", "genesis", 0, 2, some "sha256:SpritzMoon Genesis Block"⟩],
   [],
   ⟨some 1, some 1, some 1, some 2, some 0⟩,
   2⟩

theorem regStore_eq : regStore = regStoreE :=
  of_decide_eq_true (by with_unfolding_all rfl)

/-- `faucetStore`, written out: used to keep later evaluations shallow. -/
def faucetStoreE : Store :=
  ⟨[("SPM_A", ⟨100, 1/20, some 0, 0, 0, 0, 0, 100, true⟩)],
   [⟨0, "genesis", "system", "blockchain", 0, 0, some "sha256:SpritzMoon Genesis Block"⟩,
    ⟨1, "registration", "system", "SPM_A", 0, 0, some "sha256:SpritzMoon Genesis Block"⟩,
    ⟨2, "faucet", "faucet_pool", "SPM_A", 100, 0, some "sha256:SpritzMoon Genesis Block"⟩],
   [⟨0, "sha256:SpritzMoon Genesis Block", "genesis", 0, 3, some "sha256:SpritzMoon Genesis Block"⟩],
   [],
   ⟨some 1, some 1, some 1, some 3, some 0⟩,
   3⟩

theorem faucetStore_eq : faucetStore = faucetStoreE := by
  show (claim_faucet "SPM_A" 0 true regStore).2 = faucetStoreE
  rw [regStore_eq]
  exact of_decide_eq_true (by with_unfolding_all rfl)

/-! ## C1: balances are never negative, overdrafts are rejected -/

/-- C1: in every reachable state every stored device balance is non-negative,
and a transfer whose amount exceeds the sender's stored balance is rejected
(a non-ok result) with the store unchanged, so no operation ever writes a
negative balance. -/
theorem c1_balances_nonneg {w : World} (hw : Reach w) :
    (∀ p ∈ w.store.users, 0 ≤ (p.2).balance) ∧
    (∀ fr toD : String, ∀ amount now : ℚ, ∀ infra : Bool, ∀ sender : User,
      w.store.users.lookup fr = some sender → sender.balance < amount →
      (∀ a b : ℚ, (transfer_spm fr toD amount now infra w.store).1 ≠ .ok a b) ∧
      (transfer_spm fr toD amount now infra w.store).2 = w.store) := by
  refine ⟨(reach_winv hw).1.nonneg, ?_⟩
  intro fr toD amount now infra sender hsender hlt
  have hread : ∃ e : TransferResult, transfer_read fr toD amount w.store = .error e ∧
      ∀ a b : ℚ, e ≠ .ok a b := by
    unfold transfer_read
    split
    · exact ⟨_, rfl, fun a b hc => by cases hc⟩
    · split
      · exact ⟨_, rfl, fun a b hc => by cases hc⟩
      · rw [hsender]
        dsimp only
        rw [if_pos hlt]
        exact ⟨_, rfl, fun a b hc => by cases hc⟩
  obtain ⟨e, he, hne⟩ := hread
  unfold transfer_spm
  rw [he]
  exact ⟨hne, rfl⟩

/-- Witness for C1 at the reachable state holding a registered device. -/
theorem c1_balances_nonneg_witness :
    (∀ p ∈ regStore.users, 0 ≤ (p.2).balance) ∧
    (∀ a b : ℚ, (transfer_spm "SPM_A" "SPM_B" 7 3 true regStore).1 ≠ .ok a b) ∧
    (transfer_spm "SPM_A" "SPM_B" 7 3 true regStore).2 = regStore := by
  have h := c1_balances_nonneg reach_regStore
  have h2 := h.2 "SPM_A" "SPM_B" 7 3 true regUser
    (of_decide_eq_true (by with_unfolding_all rfl))
    (of_decide_eq_true (by with_unfolding_all rfl))
  exact ⟨h.1, h2.1, h2.2⟩

/-! ## C7: block numbers are contiguous and hashes chain -/

/-- Every non-genesis block points, via `previous_hash`, at the block with
the immediately preceding block number. -/
def PrevLinked (l : List Block) : Prop :=
  ∀ b ∈ l, b.block_number ≠ 0 →
    ∃ b' ∈ l, b'.block_number + 1 = b.block_number ∧ b.previous_hash = b'.block_hash

theorem chain_prev_linked : ∀ {l : List Block},
    l.map Block.block_number = (List.range l.length).reverse →
    List.Chain' (fun a b => a.previous_hash = b.block_hash) l →
    PrevLinked l := by
  intro l
  induction l with
  | nil => intro _ _ b hb; cases hb
  | cons a t ih =>
    intro hr hc
    rw [List.map_cons, List.length_cons, range_reverse_succ] at hr
    injection hr with hr1 hr2
    intro b hb hbn
    rcases List.mem_cons.1 hb with rfl | hbt
    · cases t with
      | nil =>
        rw [hr1] at hbn
        exact absurd rfl hbn
      | cons c t' =>
        refine ⟨c, List.mem_cons_of_mem _ (List.mem_cons_self _ _), ?_,
          (List.chain'_cons.1 hc).1⟩
        rw [List.map_cons, List.length_cons, range_reverse_succ] at hr2
        injection hr2 with hr21 hr22
        rw [hr21, hr1]
        simp [List.length_cons]
    · obtain ⟨b', hb', h1, h2⟩ := ih hr2 hc.tail b hbt hbn
      exact ⟨b', List.mem_cons_of_mem _ hb', h1, h2⟩

/-- C7: in every reachable state the block numbers (stored newest first) are
exactly n-1, ..., 1, 0 — a contiguous sequence from the genesis block 0 with
no gaps or repeats — and every non-genesis block's previous_hash equals the
block_hash of the block with the immediately preceding number. -/
theorem c7_block_numbering {w : World} (hw : Reach w) :
    w.store.blocks.map Block.block_number = (List.range w.store.blocks.length).reverse ∧
    PrevLinked w.store.blocks := by
  have hwf := (reach_winv hw).1.blocksWF
  exact ⟨hwf.1, chain_prev_linked hwf.1 hwf.2⟩

/-- Witness for C7 at the freshly initialized store. -/
theorem c7_block_numbering_witness :
    initStore.blocks.map Block.block_number = (List.range initStore.blocks.length).reverse ∧
    PrevLinked initStore.blocks :=
  c7_block_numbering Reach.init

/-! ## C10: the stats endpoint returns the previous snapshot -/

/-- C10: `get_blockchain_stats` returns exactly the stored stats snapshot of
the pre-call state (with the source's defaults for absent rows), and only
afterwards replaces the snapshot with a recomputation from current store
contents; concretely, after registering at time 0, a call at time 200000
still reports `active_users = 1` although recomputing at that time yields 0,
and only the next call reports 0. -/
theorem c10_stats_stale (now : ℚ) (s : Store) :
    (get_blockchain_stats now s).1 = statsView s.stats ∧
    (get_blockchain_stats now s).2 = { s with stats := computeStats now s } ∧
    (get_blockchain_stats 200000 regStore).1.active_users = 1 ∧
    (computeStats 200000 regStore).active_users = some 0 ∧
    (get_blockchain_stats 200000 (get_blockchain_stats 200000 regStore).2).1.active_users = 0 := by
  refine ⟨rfl, rfl, ?_, ?_, ?_⟩ <;> exact of_decide_eq_true (by with_unfolding_all rfl)

/-! ## C5: mining exclusivity -/

theorem start_mining_already {s : Store} {id : String} {u : User}
    (hid : id ≠ "") (hu : s.users.lookup id = some u)
    (hany : s.sessions.any (isActiveFor id) = true) (now : ℚ) (infra : Bool) :
    start_mining id now infra s = (.alreadyMining, s) := by
  unfold start_mining
  rw [show (id == "") = false from beq_eq_false_iff_ne.2 hid]
  simp only [Bool.false_eq_true, if_false]
  rw [hu]
  dsimp only
  rw [hany]
  simp only [if_true]

theorem start_mining_ok {s : Store} {id : String} {u : User}
    (hid : id ≠ "") (hu : s.users.lookup id = some u)
    (hany : s.sessions.any (isActiveFor id) = false) (now : ℚ) (infra : Bool) :
    (start_mining id now infra s).1 = .ok s.nextId ∧
    ((start_mining id now infra s).2).users.lookup id = some { u with last_activity := now } ∧
    ((start_mining id now infra s).2).sessions =
      (⟨s.nextId, id, now, none, 0, 0, "active"⟩ : MiningSession) :: s.sessions := by
  unfold start_mining
  rw [show (id == "") = false from beq_eq_false_iff_ne.2 hid]
  simp only [Bool.false_eq_true, if_false]
  rw [hu]
  dsimp only
  rw [hany]
  simp only [Bool.false_eq_true, if_false]
  refine ⟨?_, ?_, ?_⟩
  · trivial
  · rw [add_tx_users]
    change (updUser id (fun v => { v with last_activity := now }) s.users).lookup id = _
    rw [lookup_updUser_self, hu]
    rfl
  · rw [add_tx_sessions]

/-- C5: in every reachable state each device has at most one session with
status `active`; when an active session exists, `start_mining` returns the
Conflict error (`Already mining`) and changes nothing; and calling start
twice without an intervening stop yields that error on the second call. -/
theorem c5_mining_exclusive {w : World} (hw : Reach w) :
    (∀ id : String, w.store.sessions.countP (isActiveFor id) ≤ 1) ∧
    (∀ id : String, ∀ u : User, ∀ now : ℚ, ∀ infra : Bool, id ≠ "" →
      w.store.users.lookup id = some u →
      w.store.sessions.any (isActiveFor id) = true →
      start_mining id now infra w.store = (.alreadyMining, w.store)) ∧
    (∀ id : String, ∀ u : User, ∀ now1 now2 : ℚ, ∀ infra1 infra2 : Bool, id ≠ "" →
      w.store.users.lookup id = some u →
      w.store.sessions.any (isActiveFor id) = false →
      (start_mining id now2 infra2 (start_mining id now1 infra1 w.store).2).1 =
        .alreadyMining) := by
  refine ⟨(reach_winv hw).1.sessOne, ?_, ?_⟩
  · intro id u now infra hid hu hany
    exact start_mining_already hid hu hany now infra
  · intro id u now1 now2 infra1 infra2 hid hu hany
    obtain ⟨_, hu2, hsess2⟩ := start_mining_ok hid hu hany now1 infra1
    have hany2 : ((start_mining id now1 infra1 w.store).2).sessions.any (isActiveFor id) = true := by
      rw [hsess2, List.any_cons]
      have : isActiveFor id ⟨w.store.nextId, id, now1, none, 0, 0, "active"⟩ = true := by
        simp [isActiveFor]
      rw [this]
      rfl
    rw [start_mining_already hid hu2 hany2 now2 infra2]

/-- Witness for C5: starting twice on the registered device. -/
theorem c5_mining_exclusive_witness :
    (start_mining "SPM_A" 1 true (start_mining "SPM_A" 0 true regStore).2).1 =
      .alreadyMining :=
  (c5_mining_exclusive reach_regStore).2.2 "SPM_A" regUser 0 1 true true
    (of_decide_eq_true (by with_unfolding_all rfl))
    (of_decide_eq_true (by with_unfolding_all rfl))
    (of_decide_eq_true (by with_unfolding_all rfl))

/-! ## C4: faucet cooldown -/

theorem claim_faucet_cooldown_eq {s : Store} {id : String} {u : User} {last now : ℚ}
    (hid : id ≠ "") (hu : s.users.lookup id = some u)
    (hl : u.last_faucet_claim = some last) (hcd : now - last < 86400) (infra : Bool) :
    claim_faucet id now infra s =
      (.cooldown (fHours (86400 - (now - last))) (fMinutes (86400 - (now - last))), s) := by
  unfold claim_faucet
  rw [show (id == "") = false from beq_eq_false_iff_ne.2 hid]
  simp only [Bool.false_eq_true, if_false]
  rw [hu]
  dsimp only
  rw [hl]
  dsimp only
  rw [if_pos hcd]

theorem claim_faucet_grant_eq {s : Store} {id : String} {u : User} {now : ℚ}
    (hid : id ≠ "") (hu : s.users.lookup id = some u)
    (hnc : ∀ last : ℚ, u.last_faucet_claim = some last → 86400 ≤ now - last) (infra : Bool) :
    claim_faucet id now infra s = faucet_grant id now infra u s := by
  unfold claim_faucet
  rw [show (id == "") = false from beq_eq_false_iff_ne.2 hid]
  simp only [Bool.false_eq_true, if_false]
  rw [hu]
  dsimp only
  cases hl : u.last_faucet_claim with
  | none => rfl
  | some last =>
    dsimp only
    rw [if_neg (not_lt.2 (hnc last hl))]

theorem faucet_grant_result {s : Store} {id : String} {u : User} {now : ℚ}
    (hu : s.users.lookup id = some u) (hm4 : Mul4 u.balance) (infra : Bool) :
    (faucet_grant id now infra u s).1 = .ok 100 (u.balance + 100) ∧
    ((faucet_grant id now infra u s).2).users.lookup id =
      some { u with balance := u.balance + 100, last_faucet_claim := some now,
                    total_received := u.total_received + 100, last_activity := now } := by
  have hex : round4 (u.balance + 100) = u.balance + 100 :=
    round4_eq_self (hm4.add Mul4.hundred)
  unfold faucet_grant
  dsimp only
  constructor
  · rw [hex]
  · rw [add_tx_users]
    change (updUser id (fun v =>
      { v with balance := round4 (u.balance + 100), last_faucet_claim := some now,
               total_received := v.total_received + 100, last_activity := now }) s.users).lookup id = _
    rw [lookup_updUser_self, hu, hex]
    rfl

/-- C4: for a known device, `claim_faucet` fails with the Cooldown error if
and only if `last_faucet_claim` is set less than 24 hours (86400 s) before
`now`; the error carries the remaining wait (as whole hours and minutes of
`86400 - (now - last)`) and changes no state.  Otherwise the claim credits
exactly 100 and stamps `last_faucet_claim := now`, so a second claim within
24 hours fails with Cooldown and a claim once the window has passed succeeds
again. -/
theorem c4_faucet_cooldown {w : World} (hw : Reach w) {id : String} {u : User}
    (hid : id ≠ "") (hu : w.store.users.lookup id = some u) (now : ℚ) (infra : Bool) :
    (∀ last : ℚ, u.last_faucet_claim = some last → now - last < 86400 →
      claim_faucet id now infra w.store =
        (.cooldown (fHours (86400 - (now - last))) (fMinutes (86400 - (now - last))),
         w.store)) ∧
    ((∀ last : ℚ, u.last_faucet_claim = some last → 86400 ≤ now - last) →
      (claim_faucet id now infra w.store).1 = .ok 100 (u.balance + 100) ∧
      ((claim_faucet id now infra w.store).2).users.lookup id =
        some { u with balance := u.balance + 100, last_faucet_claim := some now,
                      total_received := u.total_received + 100, last_activity := now } ∧
      (∀ now2 : ℚ, now2 - now < 86400 →
        (claim_faucet id now2 infra (claim_faucet id now infra w.store).2).1 =
          .cooldown (fHours (86400 - (now2 - now))) (fMinutes (86400 - (now2 - now)))) ∧
      (∀ now3 : ℚ, 86400 ≤ now3 - now →
        (claim_faucet id now3 infra (claim_faucet id now infra w.store).2).1 =
          .ok 100 (u.balance + 100 + 100))) := by
  have hm4 : Mul4 u.balance := (reach_winv hw).1.mul4 _ (lookup_mem hu)
  constructor
  · intro last hl hcd
    exact claim_faucet_cooldown_eq hid hu hl hcd infra
  · intro hnc
    rw [claim_faucet_grant_eq hid hu hnc infra]
    obtain ⟨hres, hlook⟩ := faucet_grant_result hu hm4 infra
    refine ⟨hres, hlook, ?_, ?_⟩
    · intro now2 hcd2
      rw [claim_faucet_cooldown_eq hid hlook rfl hcd2 infra]
    · intro now3 hw3
      rw [claim_faucet_grant_eq hid hlook
        (fun last hl => by cases hl; exact hw3) infra]
      exact (faucet_grant_result hlook (hm4.add Mul4.hundred) infra).1

/-- Witness for C4: the registered device claims at time 5, is refused at
time 6, and succeeds again at time 86500. -/
theorem c4_faucet_cooldown_witness :
    (claim_faucet "SPM_A" 5 true regStore).1 = .ok 100 (regUser.balance + 100) ∧
    (claim_faucet "SPM_A" 6 true (claim_faucet "SPM_A" 5 true regStore).2).1 =
      .cooldown (fHours (86400 - (6 - 5))) (fMinutes (86400 - (6 - 5))) ∧
    (claim_faucet "SPM_A" 86500 true (claim_faucet "SPM_A" 5 true regStore).2).1 =
      .ok 100 (regUser.balance + 100 + 100) := by
  have h := (@c4_faucet_cooldown ⟨regStore, 0⟩ reach_regStore "SPM_A" regUser
    (of_decide_eq_true (by with_unfolding_all rfl))
    (of_decide_eq_true (by with_unfolding_all rfl)) 5 true).2
    (fun last hl => Option.noConfusion hl)
  refine ⟨h.1, ?_, ?_⟩
  · exact h.2.2.1 6 (of_decide_eq_true (by with_unfolding_all rfl))
  · exact h.2.2.2 86500 (of_decide_eq_true (by with_unfolding_all rfl))

/-! ## C6: mining settlement -/

/-- C6: stopping a device's (unique) active session at time `now` earns
`round((now - start_time)/60 * mining_rate, 4)`; the elapsed duration is
never negative; the session is marked completed with `end_time`, the
truncated duration and `tokens_earned` recorded; the device's balance grows
by exactly the earned amount, and the earned amount and new balance are
returned. -/
theorem c6_stop_mining {w : World} (hw : Reach w) {id : String} {u : User}
    {sess : MiningSession} (hid : id ≠ "")
    (hu : w.store.users.lookup id = some u)
    (hsess : w.store.sessions.filter (isActiveFor id) = [sess])
    {now : ℚ} (hnow : w.time ≤ now) (infra : Bool) :
    0 ≤ now - sess.start_time ∧
    (stop_mining id now infra w.store).1 =
      .ok (round4 ((now - sess.start_time) / 60 * u.mining_rate))
          (u.balance + round4 ((now - sess.start_time) / 60 * u.mining_rate))
          (round2 ((now - sess.start_time) / 60)) ∧
    ((stop_mining id now infra w.store).2).users.lookup id =
      some { u with
        balance := u.balance + round4 ((now - sess.start_time) / 60 * u.mining_rate),
        total_mined := u.total_mined + round4 ((now - sess.start_time) / 60 * u.mining_rate),
        last_activity := now } ∧
    ({ sess with
        end_time := some now,
        duration_seconds := ratTrunc (now - sess.start_time),
        tokens_earned := round4 ((now - sess.start_time) / 60 * u.mining_rate),
        status := "completed" } : MiningSession) ∈
      ((stop_mining id now infra w.store).2).sessions := by
  obtain ⟨hs, hts⟩ := reach_winv hw
  have hsmem : sess ∈ w.store.sessions.filter (isActiveFor id) := by
    rw [hsess]
    exact List.mem_cons_self _ _
  have hsf := List.mem_filter.1 hsmem
  have hact : sess.status = "active" := by
    have h2 := hsf.2
    simp [isActiveFor] at h2
    exact h2.2
  have hdur : 0 ≤ now - sess.start_time := by
    have := hts sess hsf.1 hact
    linarith
  have hm4 : Mul4 u.balance := hs.mul4 _ (lookup_mem hu)
  have hex : round4 (u.balance + round4 ((now - sess.start_time) / 60 * u.mining_rate))
      = u.balance + round4 ((now - sess.start_time) / 60 * u.mining_rate) :=
    round4_eq_self (hm4.add (round4_mul4 _))
  refine ⟨hdur, ?_⟩
  unfold stop_mining
  rw [show (id == "") = false from beq_eq_false_iff_ne.2 hid]
  simp only [Bool.false_eq_true, if_false]
  rw [hsess, show latestSession [sess] = some sess from rfl]
  dsimp only
  rw [hu]
  dsimp only
  refine ⟨?_, ?_, ?_⟩
  · rw [hex]
  · rw [add_tx_users]
    change (updUser id (fun v =>
      { v with balance := round4 (u.balance + round4 ((now - sess.start_time) / 60 * u.mining_rate)),
               total_mined := v.total_mined + round4 ((now - sess.start_time) / 60 * u.mining_rate),
               last_activity := now }) w.store.users).lookup id = _
    rw [lookup_updUser_self, hu, hex]
    rfl
  · rw [add_tx_sessions]
    change _ ∈ w.store.sessions.map fun m =>
      if m.session_id == sess.session_id then
        { m with
            end_time := some now,
            duration_seconds := ratTrunc (now - sess.start_time),
            tokens_earned := round4 ((now - sess.start_time) / 60 * u.mining_rate),
            status := "completed" }
      else m
    have hupd : (fun m =>
        if m.session_id == sess.session_id then
          { m with
              end_time := some now,
              duration_seconds := ratTrunc (now - sess.start_time),
              tokens_earned := round4 ((now - sess.start_time) / 60 * u.mining_rate),
              status := "completed" }
        else m) sess =
        { sess with
            end_time := some now,
            duration_seconds := ratTrunc (now - sess.start_time),
            tokens_earned := round4 ((now - sess.start_time) / 60 * u.mining_rate),
            status := "completed" } := by
      simp
    rw [← hupd]
    exact List.mem_map_of_mem _ hsf.1

/-- The store after registering `SPM_A` and starting a mining session at
time 0; the unique active session is `sessA`. -/
def startStore : Store := (start_mining "SPM_A" 0 true regStore).2

/-- The active session created in `startStore`. -/
def sessA : MiningSession := ⟨2, "SPM_A", 0, none, 0, 0, "active"⟩

theorem reach_startStore : Reach ⟨startStore, 0⟩ :=
  Reach.start ⟨regStore, 0⟩ reach_regStore "SPM_A" true 0 le_rfl

/-- Witness for C6: stopping after 120 seconds (2 minutes) at rate 1/20
earns round4(2 * 1/20) = 0.1. -/
theorem c6_stop_mining_witness :
    (stop_mining "SPM_A" 120 true startStore).1 =
      .ok (round4 ((120 - sessA.start_time) / 60 * regUser.mining_rate))
          (regUser.balance + round4 ((120 - sessA.start_time) / 60 * regUser.mining_rate))
          (round2 ((120 - sessA.start_time) / 60)) :=
  (@c6_stop_mining ⟨startStore, 0⟩ reach_startStore "SPM_A" regUser sessA
    (of_decide_eq_true (by with_unfolding_all rfl))
    (of_decide_eq_true (by with_unfolding_all rfl))
    (of_decide_eq_true (by with_unfolding_all rfl))
    120
    (of_decide_eq_true (by with_unfolding_all rfl))
    true).2.1

/-! ## C2: transfer conservation -/

theorem transfer_read_eq {fr toD : String} {amount : ℚ} {s : Store} {sender : User}
    (hfr : fr ≠ "") (hto : toD ≠ "") (hne : fr ≠ toD) (hamt : 0 < amount)
    (hs : s.users.lookup fr = some sender) (hbal : amount ≤ sender.balance) :
    transfer_read fr toD amount s =
      .ok ⟨fr, toD, amount, sender.balance,
           ((s.users.lookup toD).map User.balance).getD 0,
           (s.users.lookup toD).isNone⟩ := by
  unfold transfer_read
  have hc1 : (fr == "" || toD == "" || !(decide (0 < amount))) = false := by
    simp [hfr, hto, hamt]
  rw [hc1]
  simp only [Bool.false_eq_true, if_false]
  rw [show (fr == toD) = false from beq_eq_false_iff_ne.2 hne]
  simp only [Bool.false_eq_true, if_false]
  rw [hs]
  dsimp only
  rw [if_neg (not_lt.2 hbal)]
  cases hr : s.users.lookup toD with
  | none => rfl
  | some r => rfl

theorem transfer_commit_missing {s : Store} {p : PendingTransfer} (now : ℚ) (infra : Bool)
    (hnodup : (s.users.map Prod.fst).Nodup)
    {sender : User} (hsl : s.users.lookup p.from_device = some sender)
    (hne : p.from_device ≠ p.to_device)
    (hm : p.recipient_missing = true)
    (hto : s.users.lookup p.to_device = none) :
    (transfer_commit p now infra s).1 =
      .ok (round4 (p.sender_balance - p.amount)) (round4 (p.recipient_balance + p.amount)) ∧
    ((transfer_commit p now infra s).2).users.lookup p.from_device =
      some { sender with
              balance := round4 (p.sender_balance - p.amount),
              total_sent := sender.total_sent + p.amount,
              last_activity := now } ∧
    ((transfer_commit p now infra s).2).users.lookup p.to_device =
      some ⟨round4 (p.recipient_balance + p.amount), 1/10, none, now, now, 0, 0,
            0 + p.amount, true⟩ ∧
    sumBalances ((transfer_commit p now infra s).2).users =
      sumBalances s.users - sender.balance + round4 (p.sender_balance - p.amount)
        + round4 (p.recipient_balance + p.amount) := by
  unfold transfer_commit
  rw [hm]
  rw [if_pos rfl]
  have hk0 : ((p.to_device, (⟨0, 1/10, none, now, now, 0, 0, 0, true⟩ : User))
      :: s.users).lookup p.from_device = some sender := by
    rw [lookup_cons_ne hne]
    exact hsl
  refine ⟨rfl, ?_, ?_, ?_⟩
  · rw [add_tx_users]
    change (updUser p.to_device
      (fun v => { v with balance := round4 (p.recipient_balance + p.amount),
                         total_received := v.total_received + p.amount,
                         last_activity := now })
      (updUser p.from_device
        (fun v => { v with balance := round4 (p.sender_balance - p.amount),
                           total_sent := v.total_sent + p.amount,
                           last_activity := now })
        ((p.to_device, (⟨0, 1/10, none, now, now, 0, 0, 0, true⟩ : User))
          :: s.users))).lookup p.from_device = _
    rw [lookup_updUser_ne hne, lookup_updUser_self, hk0]
    rfl
  · rw [add_tx_users]
    change (updUser p.to_device
      (fun v => { v with balance := round4 (p.recipient_balance + p.amount),
                         total_received := v.total_received + p.amount,
                         last_activity := now })
      (updUser p.from_device
        (fun v => { v with balance := round4 (p.sender_balance - p.amount),
                           total_sent := v.total_sent + p.amount,
                           last_activity := now })
        ((p.to_device, (⟨0, 1/10, none, now, now, 0, 0, 0, true⟩ : User))
          :: s.users))).lookup p.to_device = _
    rw [lookup_updUser_self, lookup_updUser_ne (Ne.symm hne),
      @lookup_cons_eq p.to_device
        (p.to_device, (⟨0, 1/10, none, now, now, 0, 0, 0, true⟩ : User)) s.users rfl]
    rfl
  · rw [add_tx_users]
    change sumBalances (updUser p.to_device
      (fun v => { v with balance := round4 (p.recipient_balance + p.amount),
                         total_received := v.total_received + p.amount,
                         last_activity := now })
      (updUser p.from_device
        (fun v => { v with balance := round4 (p.sender_balance - p.amount),
                           total_sent := v.total_sent + p.amount,
                           last_activity := now })
        ((p.to_device, (⟨0, 1/10, none, now, now, 0, 0, 0, true⟩ : User))
          :: s.users))) = _
    have hnd0 : (((p.to_device, (⟨0, 1/10, none, now, now, 0, 0, 0, true⟩ : User))
        :: s.users).map Prod.fst).Nodup := by
      rw [List.map_cons]
      exact List.nodup_cons.2 ⟨not_mem_keys hto, hnodup⟩
    have hnd1 : ((updUser p.from_device
        (fun v => { v with balance := round4 (p.sender_balance - p.amount),
                           total_sent := v.total_sent + p.amount,
                           last_activity := now })
        ((p.to_device, (⟨0, 1/10, none, now, now, 0, 0, 0, true⟩ : User))
          :: s.users)).map Prod.fst).Nodup := by
      rw [updUser_keys]
      exact hnd0
    have hlt : (updUser p.from_device
        (fun v => { v with balance := round4 (p.sender_balance - p.amount),
                           total_sent := v.total_sent + p.amount,
                           last_activity := now })
        ((p.to_device, (⟨0, 1/10, none, now, now, 0, 0, 0, true⟩ : User))
          :: s.users)).lookup p.to_device =
        some (⟨0, 1/10, none, now, now, 0, 0, 0, true⟩ : User) := by
      rw [lookup_updUser_ne (Ne.symm hne),
        @lookup_cons_eq p.to_device
          (p.to_device, (⟨0, 1/10, none, now, now, 0, 0, 0, true⟩ : User)) s.users rfl]
    rw [sumBalances_updUser hnd1 hlt, sumBalances_updUser hnd0 hk0, sumBalances_cons]
    dsimp only
    ring

theorem transfer_commit_existing {s : Store} {p : PendingTransfer} (now : ℚ) (infra : Bool)
    (hnodup : (s.users.map Prod.fst).Nodup)
    {sender r : User} (hsl : s.users.lookup p.from_device = some sender)
    (hne : p.from_device ≠ p.to_device)
    (hm : p.recipient_missing = false)
    (hto : s.users.lookup p.to_device = some r) :
    (transfer_commit p now infra s).1 =
      .ok (round4 (p.sender_balance - p.amount)) (round4 (p.recipient_balance + p.amount)) ∧
    ((transfer_commit p now infra s).2).users.lookup p.from_device =
      some { sender with
              balance := round4 (p.sender_balance - p.amount),
              total_sent := sender.total_sent + p.amount,
              last_activity := now } ∧
    ((transfer_commit p now infra s).2).users.lookup p.to_device =
      some { r with
              balance := round4 (p.recipient_balance + p.amount),
              total_received := r.total_received + p.amount,
              last_activity := now } ∧
    sumBalances ((transfer_commit p now infra s).2).users =
      sumBalances s.users - sender.balance + round4 (p.sender_balance - p.amount)
        - r.balance + round4 (p.recipient_balance + p.amount) := by
  unfold transfer_commit
  rw [hm]
  simp only [Bool.false_eq_true, if_false]
  refine ⟨?_, ?_, ?_, ?_⟩
  · trivial
  · rw [add_tx_users]
    change (updUser p.to_device
      (fun v => { v with balance := round4 (p.recipient_balance + p.amount),
                         total_received := v.total_received + p.amount,
                         last_activity := now })
      (updUser p.from_device
        (fun v => { v with balance := round4 (p.sender_balance - p.amount),
                           total_sent := v.total_sent + p.amount,
                           last_activity := now }) s.users)).lookup p.from_device = _
    rw [lookup_updUser_ne hne, lookup_updUser_self, hsl]
    rfl
  · rw [add_tx_users]
    change (updUser p.to_device
      (fun v => { v with balance := round4 (p.recipient_balance + p.amount),
                         total_received := v.total_received + p.amount,
                         last_activity := now })
      (updUser p.from_device
        (fun v => { v with balance := round4 (p.sender_balance - p.amount),
                           total_sent := v.total_sent + p.amount,
                           last_activity := now }) s.users)).lookup p.to_device = _
    rw [lookup_updUser_self, lookup_updUser_ne (Ne.symm hne), hto]
    rfl
  · rw [add_tx_users]
    change sumBalances (updUser p.to_device
      (fun v => { v with balance := round4 (p.recipient_balance + p.amount),
                         total_received := v.total_received + p.amount,
                         last_activity := now })
      (updUser p.from_device
        (fun v => { v with balance := round4 (p.sender_balance - p.amount),
                           total_sent := v.total_sent + p.amount,
                           last_activity := now }) s.users)) = _
    have hnd1 : ((updUser p.from_device
        (fun v => { v with balance := round4 (p.sender_balance - p.amount),
                           total_sent := v.total_sent + p.amount,
                           last_activity := now }) s.users).map Prod.fst).Nodup := by
      rw [updUser_keys]
      exact hnodup
    have hlt : (updUser p.from_device
        (fun v => { v with balance := round4 (p.sender_balance - p.amount),
                           total_sent := v.total_sent + p.amount,
                           last_activity := now }) s.users).lookup p.to_device = some r := by
      rw [lookup_updUser_ne (Ne.symm hne)]
      exact hto
    rw [sumBalances_updUser hnd1 hlt, sumBalances_updUser hnodup hsl]

/-- C2 (amended): a successful transfer whose amount lies on the ledger's
4-decimal grid moves exactly `amount`: the sender's stored balance drops by
`amount`, the recipient's stored balance (0 for an auto-provisioned
recipient) rises by `amount`, the sum of all stored balances is unchanged,
and the returned balances equal the stored post-transfer balances.  (For
amounts off the grid the written balances are rounded to 4 decimals, so the
deltas differ from `amount` — see the counterexample.) -/
theorem c2_transfer_conservation {w : World} (hw : Reach w) {fr toD : String}
    {amount : ℚ} {sender : User}
    (hfr : fr ≠ "") (hto : toD ≠ "") (hne : fr ≠ toD)
    (hamt : 0 < amount) (hm4 : Mul4 amount)
    (hs : w.store.users.lookup fr = some sender) (hbal : amount ≤ sender.balance)
    (now : ℚ) (infra : Bool) :
    (transfer_spm fr toD amount now infra w.store).1 =
      .ok (sender.balance - amount)
          (((w.store.users.lookup toD).map User.balance).getD 0 + amount) ∧
    ((transfer_spm fr toD amount now infra w.store).2).users.lookup fr =
      some { sender with
              balance := sender.balance - amount,
              total_sent := sender.total_sent + amount,
              last_activity := now } ∧
    (((transfer_spm fr toD amount now infra w.store).2).users.lookup toD).map User.balance =
      some (((w.store.users.lookup toD).map User.balance).getD 0 + amount) ∧
    sumBalances ((transfer_spm fr toD amount now infra w.store).2).users =
      sumBalances w.store.users := by
  have hnd := (reach_winv hw).1.nodup
  have hm4s : Mul4 sender.balance := (reach_winv hw).1.mul4 _ (lookup_mem hs)
  have hst : round4 (sender.balance - amount) = sender.balance - amount :=
    round4_eq_self (hm4s.sub hm4)
  unfold transfer_spm
  rw [transfer_read_eq hfr hto hne hamt hs hbal]
  dsimp only
  cases hr : w.store.users.lookup toD with
  | none =>
    have h := @transfer_commit_missing w.store
      ⟨fr, toD, amount, sender.balance, ((none : Option User).map User.balance).getD 0,
       (none : Option User).isNone⟩ now infra hnd sender hs hne rfl hr
    have hrt : round4 ((0 : ℚ) + amount) = 0 + amount :=
      round4_eq_self (Mul4.zero.add hm4)
    obtain ⟨h1, h2, h3, h4⟩ := h
    simp only [Option.map_none', Option.getD_none] at h1 h2 h3 h4 ⊢
    refine ⟨?_, ?_, ?_, ?_⟩
    · rw [h1, hst, hrt]
    · rw [h2, hst]
    · rw [h3]
      simp only [Option.map_some']
      rw [hrt]
    · rw [h4, hst, hrt]
      ring
  | some r =>
    have hm4r : Mul4 r.balance := (reach_winv hw).1.mul4 _ (lookup_mem hr)
    have hrt : round4 (r.balance + amount) = r.balance + amount :=
      round4_eq_self (hm4r.add hm4)
    have h := @transfer_commit_existing w.store
      ⟨fr, toD, amount, sender.balance, ((some r).map User.balance).getD 0,
       (some r).isNone⟩ now infra hnd sender r hs hne rfl hr
    obtain ⟨h1, h2, h3, h4⟩ := h
    simp only [Option.map_some', Option.getD_some] at h1 h2 h3 h4 ⊢
    refine ⟨?_, ?_, ?_, ?_⟩
    · rw [h1, hst, hrt]
    · rw [h2, hst]
    · rw [h3]
      simp only [Option.map_some']
      rw [hrt]
    · rw [h4, hst, hrt]
      ring

/-- Witness for C2 at the reachable state where `SPM_A` holds 100: a
transfer of 50 to a fresh device moves exactly 50 and preserves the total. -/
theorem c2_transfer_conservation_witness :
    (transfer_spm "SPM_A" "SPM_B" 50 1 true faucetStore).1 =
      .ok ((100 : ℚ) - 50) (((faucetStore.users.lookup "SPM_B").map User.balance).getD 0 + 50) ∧
    sumBalances ((transfer_spm "SPM_A" "SPM_B" 50 1 true faucetStore).2).users =
      sumBalances faucetStore.users := by
  have h := @c2_transfer_conservation ⟨faucetStore, 0⟩ reach_faucetStore "SPM_A" "SPM_B" 50
    ⟨100, 1/20, some 0, 0, 0, 0, 0, 100, true⟩
    (of_decide_eq_true (by with_unfolding_all rfl))
    (of_decide_eq_true (by with_unfolding_all rfl))
    (of_decide_eq_true (by with_unfolding_all rfl))
    (of_decide_eq_true (by with_unfolding_all rfl))
    ⟨500000, by with_unfolding_all rfl⟩
    (by rw [faucetStore_eq]; exact of_decide_eq_true (by with_unfolding_all rfl))
    (of_decide_eq_true (by with_unfolding_all rfl))
    1 true
  exact ⟨h.1, h.2.2.2⟩

/-- Counterexample to C2 as stated: from the reachable state where `SPM_A`
holds exactly 100, a successful transfer of amount 0.00006 debits the sender
by 0.0001 (the written balance is round(100 - 0.00006, 4) = 99.9999), not by
0.00006. -/
theorem c2_transfer_conservation_counterexample :
    (transfer_spm "SPM_A" "SPM_B" (6/100000) 0 true faucetStore).1 =
      .ok (999999/10000) (1/10000) ∧
    (faucetStore.users.lookup "SPM_A").map User.balance = some 100 ∧
    (((transfer_spm "SPM_A" "SPM_B" (6/100000) 0 true faucetStore).2).users.lookup
      "SPM_A").map User.balance = some (999999/10000) ∧
    (100 : ℚ) - 999999/10000 ≠ 6/100000 := by
  rw [faucetStore_eq]
  refine ⟨?_, ?_, ?_, ?_⟩
  · with_unfolding_all rfl
  · with_unfolding_all rfl
  · with_unfolding_all rfl
  · exact of_decide_eq_true (by with_unfolding_all rfl)

/-! ## C8: auto-provisioned transfer recipients -/

theorem add_tx_append {s : Store} (hwf : BlocksWF s.blocks) (hne : s.blocks ≠ [])
    (ty fr toD : String) (amt now : ℚ) :
    ∃ bh : String,
      ((add_transaction_to_blockchain true ty fr toD amt now s).2).transactions
        = s.transactions ++ [⟨s.nextId, ty, fr, toD, amt, now, some bh⟩] := by
  obtain ⟨b, t, heq, hbn, _⟩ := blocksWF_shape hwf hne
  have hwf' : BlocksWF (b :: t) := heq ▸ hwf
  rw [heq] at hbn
  have hfb : findBlock (maxBlockNumber s.blocks) s.blocks = some b := by
    rw [heq, maxBlockNumber_eq hwf']
    exact findBlock_head hbn
  unfold add_transaction_to_blockchain
  rw [if_pos rfl]
  dsimp only
  rw [hfb]
  exact ⟨_, rfl⟩

theorem transfer_commit_transactions {s : Store} {p : PendingTransfer} (now : ℚ)
    (hwf : BlocksWF s.blocks) (hne : s.blocks ≠ []) :
    ∃ bh : String,
      ((transfer_commit p now true s).2).transactions
        = s.transactions ++
            [⟨s.nextId, "transfer", p.from_device, p.to_device, p.amount, now, some bh⟩] := by
  unfold transfer_commit
  dsimp only
  apply add_tx_append
  · exact hwf
  · exact hne

/-- C8 (amended): naming an unknown recipient in a transfer auto-provisions
it with balance 0 (then credited with the rounded amount) and the fixed
default mining rate 0.1 — not the rate derivation used at registration — and
appends exactly one `transfer` transaction: the transaction log grows by one
and the number of `registration` transactions is unchanged. -/
theorem c8_autoprovision {w : World} (hw : Reach w) {fr toD : String}
    {amount : ℚ} {sender : User}
    (hfr : fr ≠ "") (hto : toD ≠ "") (hne : fr ≠ toD) (hamt : 0 < amount)
    (hs : w.store.users.lookup fr = some sender) (hbal : amount ≤ sender.balance)
    (hmiss : w.store.users.lookup toD = none) (now : ℚ) :
    ((transfer_spm fr toD amount now true w.store).2).users.lookup toD =
      some ⟨round4 (0 + amount), 1/10, none, now, now, 0, 0, 0 + amount, true⟩ ∧
    ((transfer_spm fr toD amount now true w.store).2).transactions.length =
      w.store.transactions.length + 1 ∧
    ((transfer_spm fr toD amount now true w.store).2).transactions.countP
        (fun t => t.type == "registration") =
      w.store.transactions.countP (fun t => t.type == "registration") ∧
    ((transfer_spm fr toD amount now true w.store).2).transactions.countP
        (fun t => t.type == "transfer") =
      w.store.transactions.countP (fun t => t.type == "transfer") + 1 := by
  have hwf := (reach_winv hw).1.blocksWF
  have hbne := (reach_winv hw).1.blocksNe
  unfold transfer_spm
  rw [transfer_read_eq hfr hto hne hamt hs hbal, hmiss]
  dsimp only
  have h := @transfer_commit_missing w.store
    ⟨fr, toD, amount, sender.balance, ((none : Option User).map User.balance).getD 0,
     (none : Option User).isNone⟩ now true (reach_winv hw).1.nodup sender hs hne rfl hmiss
  obtain ⟨hbh, htx⟩ := @transfer_commit_transactions w.store
    ⟨fr, toD, amount, sender.balance, ((none : Option User).map User.balance).getD 0,
     (none : Option User).isNone⟩ now hwf hbne
  refine ⟨?_, ?_, ?_, ?_⟩
  · have h3 := h.2.2.1
    simp only [Option.map_none', Option.getD_none] at h3
    exact h3
  · rw [htx, List.length_append]
    rfl
  · rw [htx, List.countP_append]
    simp
  · rw [htx, List.countP_append]
    simp

/-- Witness for C8 (amended): transferring 50 to unknown `SPM_B` provisions
it with rate 0.1 and grows the log by exactly one transaction. -/
theorem c8_autoprovision_witness :
    ((transfer_spm "SPM_A" "SPM_B" 50 1 true faucetStore).2).users.lookup "SPM_B" =
      some ⟨round4 (0 + 50), 1/10, none, 1, 1, 0, 0, 0 + 50, true⟩ ∧
    ((transfer_spm "SPM_A" "SPM_B" 50 1 true faucetStore).2).transactions.length =
      faucetStore.transactions.length + 1 := by
  have h := @c8_autoprovision ⟨faucetStore, 0⟩ reach_faucetStore "SPM_A" "SPM_B" 50
    ⟨100, 1/20, some 0, 0, 0, 0, 0, 100, true⟩
    (of_decide_eq_true (by with_unfolding_all rfl))
    (of_decide_eq_true (by with_unfolding_all rfl))
    (of_decide_eq_true (by with_unfolding_all rfl))
    (of_decide_eq_true (by with_unfolding_all rfl))
    (by rw [faucetStore_eq]; exact of_decide_eq_true (by with_unfolding_all rfl))
    (of_decide_eq_true (by with_unfolding_all rfl))
    (by rw [faucetStore_eq]; exact of_decide_eq_true (by with_unfolding_all rfl))
    1
  exact ⟨h.1, h.2.1⟩

/-- Counterexample to C8 as stated: the auto-provisioned recipient gets the
constant mining rate 0.1, while the registration derivation
(`round(0.05 + hash % 100 / 1000, 3)`, the same function `register_device`
uses) yields e.g. 0.05 at hash value 0 — the recipient's rate is not
computed by the registration derivation. -/
theorem c8_autoprovision_counterexample :
    (((transfer_spm "SPM_A" "SPM_B" 50 0 true faucetStore).2).users.lookup "SPM_B").map
      User.mining_rate = some (1/10) ∧
    miningRateOf 0 = 1/20 ∧ ((1 : ℚ)/10) ≠ 1/20 := by
  rw [faucetStore_eq]
  refine ⟨?_, ?_, ?_⟩
  · with_unfolding_all rfl
  · with_unfolding_all rfl
  · exact of_decide_eq_true (by with_unfolding_all rfl)

/-! ## C3: transfer is not atomic with its transaction append -/

/-- C3 (code bug): from the reachable state where `SPM_A` holds 100, a
transfer of 50 during which `add_transaction_to_blockchain`'s try-body
raises (the handler at src/app.py lines 321-323 swallows the exception and
returns None) still reports success and commits both balance updates, yet
appends no `transfer` transaction: the transaction log is unchanged.  The
balance commit (line 691) and the transaction append (line 695) are separate
store transactions, so the claimed both-or-neither atomicity fails. -/
theorem c3_transfer_not_atomic :
    (transfer_spm "SPM_A" "SPM_B" 50 0 false faucetStore).1 = .ok 50 50 ∧
    (((transfer_spm "SPM_A" "SPM_B" 50 0 false faucetStore).2).users.lookup "SPM_A").map
      User.balance = some 50 ∧
    (((transfer_spm "SPM_A" "SPM_B" 50 0 false faucetStore).2).users.lookup "SPM_B").map
      User.balance = some 50 ∧
    ((transfer_spm "SPM_A" "SPM_B" 50 0 false faucetStore).2).transactions =
      faucetStore.transactions ∧
    faucetStore.transactions.countP (fun t => t.type == "transfer") = 0 := by
  rw [faucetStore_eq]
  refine ⟨?_, ?_, ?_, ?_, ?_⟩
  · with_unfolding_all rfl
  · with_unfolding_all rfl
  · with_unfolding_all rfl
  · with_unfolding_all rfl
  · exact of_decide_eq_true (by with_unfolding_all rfl)

/-! ## C9: double spend under interleaved transfers -/

/-- The read phase of `transfer A -> B, 100` against the store where A holds
100. -/
def pendAB : PendingTransfer := ⟨"SPM_A", "SPM_B", 100, 100, 0, true⟩

/-- The read phase of `transfer A -> C, 100` against the same store. -/
def pendAC : PendingTransfer := ⟨"SPM_A", "SPM_C", 100, 100, 0, true⟩

/-- C9 (code bug): `transfer_spm` holds no lock between its read-and-validate
phase and its write phase (`blockchain_lock` is only taken inside
`add_transaction_to_blockchain`), so two concurrent transfers from `SPM_A`
(balance 100) of 100 each can both run their read phase against the same
pre-state — both reading sender balance 100 and passing the balance check —
and then both commit: both report success although their combined amount 200
exceeds the balance 100, and the total of stored balances grows from 100 to
200. -/
theorem c9_double_spend :
    transfer_read "SPM_A" "SPM_B" 100 faucetStore = .ok pendAB ∧
    transfer_read "SPM_A" "SPM_C" 100 faucetStore = .ok pendAC ∧
    pendAB.sender_balance = pendAC.sender_balance ∧
    (faucetStore.users.lookup "SPM_A").map User.balance = some 100 ∧
    (transfer_commit pendAB 1 true faucetStore).1 = .ok 0 100 ∧
    (transfer_commit pendAC 1 true (transfer_commit pendAB 1 true faucetStore).2).1 =
      .ok 0 100 ∧
    sumBalances ((transfer_commit pendAC 1 true
      (transfer_commit pendAB 1 true faucetStore).2).2).users = 200 ∧
    sumBalances faucetStore.users = 100 ∧
    (100 : ℚ) + 100 > 100 := by
  rw [faucetStore_eq]
  refine ⟨?_, ?_, ?_, ?_, ?_, ?_, ?_, ?_, ?_⟩
  · with_unfolding_all rfl
  · with_unfolding_all rfl
  · with_unfolding_all rfl
  · with_unfolding_all rfl
  · with_unfolding_all rfl
  · with_unfolding_all rfl
  · with_unfolding_all rfl
  · with_unfolding_all rfl
  · exact of_decide_eq_true (by with_unfolding_all rfl)
